import Mathlib

/-!
Verification development for the E-Frame-App repository (React Native BLE
image-frame application).

The development shallowly embeds the code that the claims are about:

* `src/useBLE.ts` — the chunked BLE transfer engine `startStreamingData`
  (chunking, progress math, end marker, error paths) and the transport
  encoding helper `bytesToBase64`;
* `src/ImageStorageService.ts` — `parseByteString` (byte-string tokenizer)
  and `ImageStorageService.addImage` (validated insertion into the
  in-memory image list).

Conventions of the embedding:

* JavaScript integer values (byte counts, payload lengths, progress
  percentages) are far below 2^53 and hence exact in IEEE doubles; they
  are modelled by `ℕ`/`ℤ`.  The one fractional computation,
  `Math.round((count / len) * 100)`, is modelled faithfully as double
  arithmetic: `fl` below rounds an exact rational to the nearest 53-bit
  significand (ties to even) and is applied once for the division and
  once for the multiplication, after which `Math.round` takes the nearest
  integer (ties toward +∞) of the resulting double's exact value.  The
  `NaN` produced by `0 / 0` is modelled by an explicit `JsNum.nan`
  constructor.
* The two fallible external calls (`device.requestMTU`,
  `device.writeCharacteristicWithResponseForService`) are modelled by an
  oracle: `mtuOk : Bool` and `writeOk : ℕ → Bool` indexed by the
  position of the write inside the session (payload chunks first, then
  the end-marker write).  `await` of a failing call corresponds to the
  oracle answering `false`, which transfers control to the `catch` block.
* React state setters (`setIsStreaming`, `setStreamingProgress`,
  `setStreamingStatus`) and the two characteristic-write call sites are
  recorded as an ordered event trace; the observable final UI state is
  the left fold of the trace over the initial hook state.
* The delayed `setTimeout` resets (2000 ms / 3000 ms cosmetic clears) are
  asynchronous callbacks outside the transfer routine itself and are not
  part of the trace.
-/

/-- A JavaScript number as used for the streaming progress: either an
integer value or `NaN` (the result of `0 / 0`). -/
inductive JsNum where
  | num (n : ℤ)
  | nan
deriving DecidableEq, Repr

/-- Boolean `≤` on `JsNum`, matching JavaScript comparison semantics:
any comparison involving `NaN` is false. -/
def jsLeb : JsNum → JsNum → Bool
  | JsNum.num a, JsNum.num b => decide (a ≤ b)
  | _, _ => false

/-- Decimal rendering of a `JsNum`, as JavaScript string interpolation
would produce it. -/
def jsNumStr : JsNum → String
  | JsNum.num n => toString n
  | JsNum.nan => "NaN"

/-!
IEEE-754 double-precision arithmetic.  The progress computation
`Math.round((count / byteData.length) * 100)` (`src/useBLE.ts` line 235)
is evaluated in doubles: the division and the multiplication each round
their exact result to the nearest 53-bit significand (ties to even), and
`Math.round` then returns the integer nearest to the resulting double
(ties toward +∞), which on the double's exact rational value is
`⌊x + 1/2⌋` in exact arithmetic.  `fl` below is round-to-nearest-even at
53 significant bits with unbounded exponent range, which coincides with
IEEE double rounding on every value reachable here (all magnitudes lie
far inside the normal range: between `1/L` for a payload length `L < 2^53`
and 100).
-/

/-- `⌊log2 n⌋` for `n ≥ 1`, fuel-indexed so that it computes by kernel
reduction (the fuel only bounds the `log2 n` halving steps). -/
def natLog2Go : ℕ → ℕ → ℕ
  | 0, _ => 0
  | fuel + 1, n => if 2 ≤ n then natLog2Go fuel (n / 2) + 1 else 0

/-- `⌊log2 n⌋` for `n ≥ 1` (0 at 0). -/
def natLog2 (n : ℕ) : ℕ := natLog2Go n n

/-- `⌊log2 (a / b)⌋` for naturals `a, b ≥ 1`: `log2 a - log2 b`, corrected
down by one when `a/b` falls below that power of two. -/
def floorLog2 (a b : ℕ) : ℤ :=
  if b * 2 ^ natLog2 a ≤ a * 2 ^ natLog2 b then (natLog2 a : ℤ) - natLog2 b
  else (natLog2 a : ℤ) - natLog2 b - 1

/-- The integer nearest to `q`, ties to the even integer (IEEE default
rounding applied to an integer-scaled significand). -/
def roundNE (q : ℚ) : ℤ :=
  if q - ⌊q⌋ < 1 / 2 then ⌊q⌋
  else if 1 / 2 < q - ⌊q⌋ then ⌊q⌋ + 1
  else if ⌊q⌋ % 2 = 0 then ⌊q⌋ else ⌊q⌋ + 1

/-- The binade of a positive rational: `flExp q = ⌊log2 q⌋`, so that
`q / 2 ^ flExp q ∈ [1, 2)`. -/
def flExp (q : ℚ) : ℤ := floorLog2 q.num.toNat q.den

/-- Round a nonnegative rational to the nearest IEEE double (round to
nearest, ties to even, 53-bit significand, unbounded exponent): scale `q`
into `[2^52, 2^53)`, round to an integer significand, and scale back
(the scale factor is kept as a natural-number power so that the function
evaluates by kernel reduction). -/
def fl (q : ℚ) : ℚ :=
  if q ≤ 0 then 0
  else if flExp q ≤ 52 then
    ((roundNE (q * ((2 ^ (52 - flExp q).toNat : ℕ) : ℚ)) : ℤ) : ℚ) /
      ((2 ^ (52 - flExp q).toNat : ℕ) : ℚ)
  else
    ((roundNE (q / ((2 ^ (flExp q - 52).toNat : ℕ) : ℚ)) : ℤ) : ℚ) *
      ((2 ^ (flExp q - 52).toNat : ℕ) : ℚ)

/-- ECMAScript `Math.round` on the exact rational value of a double:
the nearest integer, ties toward +∞, i.e. `⌊x + 1/2⌋`. -/
def mathRound (q : ℚ) : ℤ := ⌊q + 1 / 2⌋

/-- The exact rational value of the double computed by
`(count / L) * 100` in `src/useBLE.ts` line 235: one double rounding for
the division, one for the multiplication. -/
def jsEvalProgress (count L : ℕ) : ℚ :=
  fl (fl ((count : ℚ) / (L : ℚ)) * 100)

/-- `Math.round((count / L) * 100)` from `src/useBLE.ts` line 235, for
`count, L : ℕ`, under IEEE double semantics.  For `L = 0` JavaScript
computes `0 / 0 = NaN` (the loop only ever divides with
`count = 0 ≤ L`). -/
def jsProgress (count L : ℕ) : JsNum :=
  if L = 0 then JsNum.nan else JsNum.num (mathRound (jsEvalProgress count L))

/-- The status string emitted after each acknowledged chunk
(`src/useBLE.ts` line 237). -/
def streamingMsg (p : JsNum) (count L : ℕ) : String :=
  "Streaming... " ++ jsNumStr p ++ "% (" ++ toString count ++ "/" ++ toString L ++ " bytes)"

/-- Observable events of one `startStreamingData` invocation: the three
React state setters, the MTU request, and the two characteristic-write
call sites (`chunkWrite` = line 229, the per-chunk write; `markerWrite` =
line 248, the end-marker write).  Write events record the raw byte list
passed to `bytesToBase64`; a write event is present in the trace whether
or not the write succeeded (a failing write was still issued). -/
inductive Ev where
  | setIsStreaming (b : Bool)
  | setStreamingProgress (p : JsNum)
  | setStreamingStatus (s : String)
  | requestMTU (size : ℕ)
  | chunkWrite (bytes : List ℕ)
  | markerWrite (bytes : List ℕ)
deriving DecidableEq, Repr

/-- Is the event one of the two characteristic writes? -/
def isWriteEv : Ev → Bool
  | Ev.chunkWrite _ => true
  | Ev.markerWrite _ => true
  | _ => false

/-- Project an event to its emitted progress value, if it is a
`setStreamingProgress` call. -/
def progOf : Ev → Option JsNum
  | Ev.setStreamingProgress p => some p
  | _ => none

/-- Does the trace contain an emission of a `NaN` progress value? -/
def hasNanProgress (evs : List Ev) : Bool :=
  evs.any fun e => progOf e == some JsNum.nan

/-- The UI state held by the `useBLE` hook (the three `useState` cells the
transfer engine touches, `src/useBLE.ts` lines 36–38). -/
structure UiState where
  streamingProgress : JsNum
  streamingStatus : String
  isStreaming : Bool
deriving DecidableEq, Repr

/-- Effect of one event on the hook state (write/MTU events do not touch
React state). -/
def applyEv (st : UiState) : Ev → UiState
  | Ev.setStreamingProgress p => { st with streamingProgress := p }
  | Ev.setStreamingStatus s => { st with streamingStatus := s }
  | Ev.setIsStreaming b => { st with isStreaming := b }
  | _ => st

/-- Hook state after a trace, starting from the initial `useState` values
`(0, "", false)`. -/
def finalUi (evs : List Ev) : UiState :=
  evs.foldl applyEv ⟨JsNum.num 0, "", false⟩

/-- Chunking loop of `src/useBLE.ts` lines 218–222, fuel-indexed so that it
computes by kernel reduction:
`for (let i = 0; i < byteData.length; i += 300) chunks.push(byteData.slice(i, i + 300))`.
Each iteration takes the next 300 bytes and recurses on the rest; the fuel
(at least one unit per chunk) is never exhausted when it starts at the
payload length. -/
def makeChunksGo : ℕ → List ℕ → List (List ℕ)
  | _, [] => []
  | 0, l => [l]
  | fuel + 1, x :: rest => ((x :: rest).take 300) :: makeChunksGo fuel ((x :: rest).drop 300)

/-- `chunks` as built by `startStreamingData` (limitBytes = 300). -/
def makeChunks (byteData : List ℕ) : List (List ℕ) :=
  makeChunksGo byteData.length byteData

/-- Total byte length of a list of chunks. -/
def sumLen (chunks : List (List ℕ)) : ℕ :=
  (chunks.map List.length).sum

/-- The per-chunk streaming loop of `src/useBLE.ts` lines 227–242.
Arguments: total payload length `L`, write oracle, remaining chunks, index
of the next write, `count` (the code's running byte counter).  Returns the
events of the loop, the value of `count` when the loop exits (normally or
by a throw), and whether every write in the loop was acknowledged.  On a
failing write the write event is recorded (the call was issued) but
`count += chunk.length` is never reached. -/
def streamLoop (L : ℕ) (writeOk : ℕ → Bool) :
    List (List ℕ) → ℕ → ℕ → List Ev × ℕ × Bool
  | [], _, count => ([], count, true)
  | chunk :: rest, i, count =>
    if writeOk i then
      let count2 := count + chunk.length
      let p := jsProgress count2 L
      let r := streamLoop L writeOk rest (i + 1) count2
      (Ev.chunkWrite chunk :: Ev.setStreamingProgress p ::
        Ev.setStreamingStatus (streamingMsg p count2 L) :: r.1, r.2)
    else
      ([Ev.chunkWrite chunk], count, false)

/-- The events appended by the `catch` block of `startStreamingData`
(`src/useBLE.ts` lines 271–282, ignoring the delayed 3000 ms reset). -/
def failTail : List Ev :=
  [Ev.setStreamingStatus "Error: Streaming failed", Ev.setIsStreaming false]

/-- Result of one `startStreamingData` invocation: the event trace, the
final value of the local `count` variable (the engine's `bytesSent`), and
whether the session ran to completion. -/
structure RunResult where
  trace : List Ev
  bytesSent : ℕ
  completed : Bool
deriving DecidableEq, Repr

/-- `startStreamingData` from `src/useBLE.ts` lines 201–283.
`deviceConnected` models the truthiness of the `device` argument; `mtuOk`
and `writeOk` are the oracle for the two fallible awaited calls (writes
are numbered in session order, the end marker coming after all chunk
writes).  The trace records state setters and issued writes in program
order; any oracle failure jumps to the `catch` block (`failTail`). -/
def startStreamingData (deviceConnected : Bool) (byteData : List ℕ)
    (mtuOk : Bool) (writeOk : ℕ → Bool) : RunResult :=
  if deviceConnected then
    let pre : List Ev :=
      [Ev.setIsStreaming true, Ev.setStreamingProgress (JsNum.num 0),
       Ev.setStreamingStatus "Requesting MTU...", Ev.requestMTU 303]
    if mtuOk then
      let chunks := makeChunks byteData
      let head := pre ++
        [Ev.setStreamingStatus "Preparing data chunks...",
         Ev.setStreamingStatus "Streaming data..."]
      let res := streamLoop byteData.length writeOk chunks 0 0
      if res.2.2 then
        let head2 := head ++ res.1 ++
          [Ev.setStreamingStatus "Sending completion signal...",
           Ev.markerWrite [0xFF, 0xFF, 0xFF, 0xFF]]
        if writeOk chunks.length then
          ⟨head2 ++ [Ev.setStreamingProgress (JsNum.num 100),
              Ev.setStreamingStatus "Streaming completed successfully!",
              Ev.setIsStreaming false], res.2.1, true⟩
        else
          ⟨head2 ++ failTail, res.2.1, false⟩
      else
        ⟨head ++ res.1 ++ failTail, res.2.1, false⟩
    else
      ⟨pre ++ failTail, 0, false⟩
  else
    ⟨[Ev.setStreamingStatus "Error: No device connected", Ev.setIsStreaming false], 0, false⟩

/-- The write oracle in which every write is acknowledged. -/
def alwaysOk : ℕ → Bool := fun _ => true

/-- The write oracle in which every write fails. -/
def noWrites : ℕ → Bool := fun _ => false

/-- The events produced by the streaming loop when every write succeeds
(used to characterise `streamLoop`; one `chunkWrite`, one progress
emission and one status emission per chunk). -/
def successEvs (L : ℕ) : List (List ℕ) → ℕ → List Ev
  | [], _ => []
  | chunk :: rest, count =>
    let count2 := count + chunk.length
    let p := jsProgress count2 L
    Ev.chunkWrite chunk :: Ev.setStreamingProgress p ::
      Ev.setStreamingStatus (streamingMsg p count2 L) :: successEvs L rest count2

/-- The progress values emitted by the streaming loop: one per chunk, at
the running byte counts. -/
def progressesFrom (L : ℕ) : List (List ℕ) → ℕ → List JsNum
  | [], _ => []
  | chunk :: rest, count =>
    jsProgress (count + chunk.length) L :: progressesFrom L rest (count + chunk.length)

/-- The spec's progress formula, stated from its own words:
`round(100 × bytesSent / len(payload))`, with round-half-up over exact
rationals (defined for `len(payload) > 0`; at `L = 0` the `ℚ` division
yields `0` rather than `NaN`, so theorems only use it with `L ≠ 0`). -/
def specRound (c L : ℕ) : ℤ :=
  ⌊(100 * (c : ℚ)) / (L : ℚ) + 1 / 2⌋

/-!
Transport encoding (`src/useBLE.ts` lines 22–29).  `bytesToBase64` builds a
binary string whose character codes are the bytes (`Uint8Array` masks each
number to 8 bits, `String.fromCharCode` is the identity on codes 0–255) and
feeds it to the `react-native-base64` encoder.  The byte string is modelled
directly as the list of its character codes.
-/

/-- The base64 alphabet of the transport encoding, index 64 being the `'='`
padding character. -/
def b64chars : List Char :=
  "ABCDEFGHIJKLMNOPQRSTUVWXYZabcdefghijklmnopqrstuvwxyz0123456789+/=".data

/-- Character for a 6-bit group index (or 64 for padding). -/
def b64charOf (i : ℕ) : Char := b64chars.getD i '='

/-- Index of a character in the base64 alphabet. -/
def b64indexOf (c : Char) : ℕ := b64chars.indexOf c

/-- Modelled from the spec: the base64 binary-to-text transport encoding
(§6 "Wire encoding", glossary "Transport encoding").  The encoder itself
lives in the third-party `react-native-base64` package, not under `src/`;
it is standard base64: each group of three bytes becomes four 6-bit
indices, a trailing group of one or two bytes is padded with index 64
(`'='`). -/
def b64encode : List ℕ → List ℕ
  | [] => []
  | [a] => [a / 4, a % 4 * 16, 64, 64]
  | [a, b] => [a / 4, a % 4 * 16 + b / 16, b % 16 * 4, 64]
  | a :: b :: c :: rest =>
    [a / 4, a % 4 * 16 + b / 16, b % 16 * 4 + c / 64, c % 64] ++ b64encode rest

/-- Modelled from the spec: the decoding direction of the transport
encoding (performed by the receiving peripheral / `base64.decode`, not
under `src/`): each group of four 6-bit indices yields three bytes, a
padding index 64 in the third or fourth position ends the data with one
or two bytes. -/
def b64decode : List ℕ → List ℕ
  | e1 :: e2 :: e3 :: e4 :: rest =>
    if e3 = 64 then [e1 * 4 + e2 / 16]
    else if e4 = 64 then [e1 * 4 + e2 / 16, e2 % 16 * 16 + e3 / 4]
    else (e1 * 4 + e2 / 16) :: (e2 % 16 * 16 + e3 / 4) :: (e3 % 4 * 64 + e4) ::
      b64decode rest
  | _ => []

/-- `bytesToBase64` (`src/useBLE.ts` lines 22–29): mask each number to
8 bits (`Uint8Array`), then base64-encode the resulting byte string. -/
def bytesToBase64 (bytes : List ℕ) : List Char :=
  (b64encode (bytes.map (· % 256))).map b64charOf

/-- Modelled from the spec: decoding a transport-encoded string back to
bytes (the peripheral's side of §6). -/
def base64decode (s : List Char) : List ℕ :=
  b64decode (s.map b64indexOf)

/-!
`parseByteString` (`src/ImageStorageService.ts` lines 45–88) and
`addImage` (lines 139–177).  Strings are processed as their character
lists; JavaScript's `\s` is modelled by the ASCII whitespace characters
(all inputs of interest are ASCII).
-/

/-- ASCII whitespace, the fragment of JavaScript's `\s` relevant here. -/
def isWSChar (c : Char) : Bool :=
  c == ' ' || c == '\t' || c == '\n' || c == '\r' || c == '\x0b' || c == '\x0c'

/-- A carriage return or line feed (the class `[\r\n]`). -/
def isNLChar (c : Char) : Bool :=
  c == '\r' || c == '\n'

/-- `String.prototype.trim`. -/
def jsTrim (l : List Char) : List Char :=
  ((l.dropWhile isWSChar).reverse.dropWhile isWSChar).reverse

/-- `.replace(/[\r\n]+/g, ',')`: each maximal run of line breaks becomes a
single comma (fuel-indexed: one fuel unit per consumed character suffices,
so fuel = input length never runs out). -/
def replLineBreaksGo : ℕ → List Char → List Char
  | _, [] => []
  | 0, l => l
  | fuel + 1, c :: rest =>
    if isNLChar c then ',' :: replLineBreaksGo fuel (rest.dropWhile isNLChar)
    else c :: replLineBreaksGo fuel rest

/-- `.replace(/[\r\n]+/g, ',')`. -/
def replLineBreaks (l : List Char) : List Char := replLineBreaksGo l.length l

/-- `.replace(/\s*,\s*/g, ',')`: the leftmost-match global replace; a match
starts either at a comma or at a whitespace run that is followed by a
comma, and greedily swallows the whitespace on both sides. -/
def normCommaSpacingGo : ℕ → List Char → List Char
  | _, [] => []
  | 0, l => l
  | fuel + 1, c :: rest =>
    if c = ',' then ',' :: normCommaSpacingGo fuel (rest.dropWhile isWSChar)
    else if isWSChar c then
      match rest.dropWhile isWSChar with
      | ',' :: r => ',' :: normCommaSpacingGo fuel (r.dropWhile isWSChar)
      | _ => (c :: rest.takeWhile isWSChar) ++
          normCommaSpacingGo fuel (rest.dropWhile isWSChar)
    else c :: normCommaSpacingGo fuel rest

/-- `.replace(/\s*,\s*/g, ',')`. -/
def normCommaSpacing (l : List Char) : List Char := normCommaSpacingGo l.length l

/-- `.replace(/\s+/g, ',')`: each maximal whitespace run becomes a comma. -/
def replSpacesGo : ℕ → List Char → List Char
  | _, [] => []
  | 0, l => l
  | fuel + 1, c :: rest =>
    if isWSChar c then ',' :: replSpacesGo fuel (rest.dropWhile isWSChar)
    else c :: replSpacesGo fuel rest

/-- `.replace(/\s+/g, ',')`. -/
def replSpaces (l : List Char) : List Char := replSpacesGo l.length l

/-- Value of a character as a digit for `parseInt` (0–9, a–z, A–Z). -/
def digitVal (c : Char) : Option ℕ :=
  if '0' ≤ c ∧ c ≤ '9' then some (c.toNat - 48)
  else if 'a' ≤ c ∧ c ≤ 'z' then some (c.toNat - 87)
  else if 'A' ≤ c ∧ c ≤ 'Z' then some (c.toNat - 55)
  else none

/-- Is `c` a digit accepted by `parseInt` in base `radix`? -/
def isRadixDigit (radix : ℕ) (c : Char) : Bool :=
  match digitVal c with
  | some d => decide (d < radix)
  | none => false

/-- Value of a digit string in base `radix`. -/
def digitsVal (radix : ℕ) (l : List Char) : ℕ :=
  l.foldl (fun acc c => acc * radix + (digitVal c).getD 0) 0

/-- `parseInt`'s optional `0x`/`0X` prefix (accepted when the radix is 16). -/
def stripHex0x (s : List Char) : List Char :=
  match s with
  | '0' :: x :: r => if x = 'x' ∨ x = 'X' then r else '0' :: x :: r
  | s => s

/-- JavaScript `parseInt(s, radix)` for radix 10 or 16: skip leading
whitespace, an optional sign, for radix 16 an optional `0x` prefix, then
read the longest prefix of digits valid in the radix; `none` models `NaN`
(no digits at all).  Trailing non-digit characters are ignored. -/
def jsParseInt (s : List Char) (radix : ℕ) : Option ℤ :=
  let s1 := s.dropWhile isWSChar
  let sign : ℤ := match s1 with | '-' :: _ => -1 | _ => 1
  let s2 := match s1 with | '-' :: r => r | '+' :: r => r | _ => s1
  let s3 := if radix = 16 then stripHex0x s2 else s2
  let ds := s3.takeWhile (isRadixDigit radix)
  if ds = [] then none else some (sign * (digitsVal radix ds : ℕ))

/-- JavaScript `c.toLowerCase()` on the ASCII range. -/
def jsToLowerChar (c : Char) : Char :=
  if 65 ≤ c.toNat ∧ c.toNat ≤ 90 then Char.ofNat (c.toNat + 32) else c

/-- Lower-casing of a whole string. -/
def strToLower (s : String) : String :=
  String.mk (s.data.map jsToLowerChar)

/-- `trimmed.toLowerCase().startsWith('0x')`. -/
def startsWith0x (t : List Char) : Bool :=
  match t.map jsToLowerChar with
  | '0' :: 'x' :: _ => true
  | _ => false

/-- One character of the class `[0-9a-fA-F]`. -/
def isHexDigitChar (c : Char) : Bool :=
  decide (('0' ≤ c ∧ c ≤ '9') ∨ ('a' ≤ c ∧ c ≤ 'f') ∨ ('A' ≤ c ∧ c ≤ 'F'))

/-- The error raised for a token (`src/ImageStorageService.ts` line 83; the
inner range-check throw of line 78 is caught by the surrounding `catch`
and rethrown with this message, so every token failure surfaces it). -/
def tokenErrMsg (t : List Char) : String :=
  "Invalid byte format at \"" ++ String.mk t ++
    "\". Expected formats: 0xAB, AB, or decimal 0-255"

/-- The `value` computed for one trimmed token (lines 65–75): `0x…` tokens
parse as hex; tokens of at most two characters matching `/^[0-9a-fA-F]+$/`
parse as hex; everything else parses as decimal. -/
def tokenValue (t : List Char) : Option ℤ :=
  if startsWith0x t then jsParseInt t 16
  else if t ≠ [] ∧ t.all isHexDigitChar = true ∧ t.length ≤ 2 then jsParseInt t 16
  else jsParseInt t 10

/-- The loop body of `parseByteString` for one trimmed, non-empty token
(lines 64–84): compute `value`, throw if it is `NaN` or out of the byte
range, otherwise return it. -/
def parseToken (t : List Char) : Except String ℤ :=
  match tokenValue t with
  | none => Except.error (tokenErrMsg t)
  | some v => if v < 0 ∨ 255 < v then Except.error (tokenErrMsg t) else Except.ok v

/-- The `for (const part of parts)` loop of `parseByteString` (lines
60–85): trim each part, skip empties, parse, and fail on the first bad
token.  `acc` collects accepted values in reverse. -/
def parseBytesLoop : List (List Char) → List ℤ → Except String (List ℤ)
  | [], acc => Except.ok acc.reverse
  | p :: rest, acc =>
    let t := jsTrim p
    if t = [] then parseBytesLoop rest acc
    else
      match parseToken t with
      | Except.error m => Except.error m
      | Except.ok v => parseBytesLoop rest (v :: acc)

/-- `parseByteString` (`src/ImageStorageService.ts` lines 45–88): an empty
(whitespace-only) input yields `[]`; otherwise the input is trimmed, line
breaks become commas, whitespace around commas is removed, remaining
whitespace runs become commas, and the comma-separated tokens are parsed
one by one. -/
def parseByteString (byteString : String) : Except String (List ℤ) :=
  if jsTrim byteString.data = [] then Except.ok []
  else
    let normalized :=
      replSpaces (normCommaSpacing (replLineBreaks (jsTrim byteString.data)))
    parseBytesLoop (normalized.splitOn ',') []

/-- An entry of the in-memory image list (`ImageDataItem`,
`src/ImageStorageService.ts` lines 3–11).  The `preview` field (a derived
display-only data URI produced by `generatePreviewImage`) is not modelled:
no claim mentions it and it does not affect list membership. -/
structure ImageItem where
  id : String
  name : String
  byteData : List ℤ
  description : String
  createdAt : ℤ
  updatedAt : ℤ
deriving DecidableEq, Repr

/-- `ImageStorageService.addImage` (`src/ImageStorageService.ts` lines
139–177), acting on the in-memory list `this.images`.  `now` models
`Date.now()`, `newId` the generated random id, and `saveOk` whether the
`AsyncStorage` write in `saveToStorage` succeeds (when it fails, the
method throws *after* having pushed the new image).  Returns the method's
result (`Except` models throw) together with the list after the call. -/
def addImage (images : List ImageItem) (name byteString : String)
    (description : Option String) (now : ℤ) (newId : String) (saveOk : Bool) :
    Except String ImageItem × List ImageItem :=
  if jsTrim name.data = [] then
    (Except.error "Image name is required", images)
  else if images.any (fun img => strToLower img.name == strToLower name) then
    (Except.error "An image with this name already exists", images)
  else
    match parseByteString byteString with
    | Except.error m => (Except.error ("Invalid byte data: " ++ m), images)
    | Except.ok byteData =>
      if byteData.length = 0 then
        (Except.error "Byte data cannot be empty", images)
      else
        let newImage : ImageItem :=
          { id := newId
            name := String.mk (jsTrim name.data)
            byteData := byteData
            description := match description with
              | some d => String.mk (jsTrim d.data)
              | none => ""
            createdAt := now
            updatedAt := now }
        let images2 := images ++ [newImage]
        if saveOk then (Except.ok newImage, images2)
        else (Except.error "Failed to save image data", images2)

/-- Decidable equality for `Except`, used to evaluate concrete parser
results. -/
instance {e a : Type} [DecidableEq e] [DecidableEq a] : DecidableEq (Except e a) :=
  fun x y =>
    match x, y with
    | Except.error u, Except.error v =>
      if h : u = v then isTrue (by rw [h])
      else isFalse (by intro hc; injection hc; contradiction)
    | Except.error _, Except.ok _ => isFalse (by intro hc; injection hc)
    | Except.ok _, Except.error _ => isFalse (by intro hc; injection hc)
    | Except.ok u, Except.ok v =>
      if h : u = v then isTrue (by rw [h])
      else isFalse (by intro hc; injection hc; contradiction)

/-- The sixteen hexadecimal digit characters, in both letter cases (the
character class `[0-9a-fA-F]`). -/
def hexDigitChars : List Char := "0123456789abcdefABCDEF".data

/-- The fixed prefix of events emitted before the streaming loop (state
initialisation, MTU request, preparation statuses). -/
def headEvs : List Ev :=
  [Ev.setIsStreaming true, Ev.setStreamingProgress (JsNum.num 0),
   Ev.setStreamingStatus "Requesting MTU...", Ev.requestMTU 303,
   Ev.setStreamingStatus "Preparing data chunks...",
   Ev.setStreamingStatus "Streaming data..."]

/-!  Helper lemmas about the chunking loop. -/

theorem makeChunksGo_fuel_irrel :
    ∀ (fuel : ℕ) (l : List ℕ), l.length ≤ fuel → ∀ (fuel2 : ℕ), l.length ≤ fuel2 →
      makeChunksGo fuel l = makeChunksGo fuel2 l := by
  intro fuel
  induction fuel with
  | zero =>
    intro l hl fuel2 _
    have : l = [] := List.length_eq_zero.mp (Nat.le_zero.mp hl)
    subst this
    cases fuel2 <;> rfl
  | succ fuel ih =>
    intro l hl fuel2 hl2
    cases l with
    | nil => cases fuel2 <;> rfl
    | cons x rest =>
      cases fuel2 with
      | zero => exact absurd hl2 (by simp)
      | succ fuel2 =>
        have hlen : ((x :: rest).drop 300).length ≤ fuel := by
          simp only [List.length_drop] at *
          omega
        have hlen2 : ((x :: rest).drop 300).length ≤ fuel2 := by
          simp only [List.length_drop] at *
          omega
        simp only [makeChunksGo]
        rw [ih _ hlen _ hlen2]

theorem makeChunks_nil : makeChunks [] = [] := rfl

theorem makeChunks_cons (l : List ℕ) (h : l ≠ []) :
    makeChunks l = l.take 300 :: makeChunks (l.drop 300) := by
  cases l with
  | nil => exact absurd rfl h
  | cons x rest =>
    show makeChunksGo (rest.length + 1) (x :: rest) = _
    simp only [makeChunksGo, makeChunks]
    rw [makeChunksGo_fuel_irrel rest.length ((x :: rest).drop 300)
      (by simp only [List.length_drop, List.length_cons]; omega)
      ((x :: rest).drop 300).length (le_refl _)]

theorem makeChunks_eq_nil_iff (l : List ℕ) : makeChunks l = [] ↔ l = [] := by
  constructor
  · intro h
    by_contra hne
    rw [makeChunks_cons l hne] at h
    exact List.cons_ne_nil _ _ h
  · intro h; subst h; rfl

/-- Induction along the chunking recursion: to prove a property of all
payload lists it suffices to prove it for `[]` and, for a non-empty list,
assuming it for the list with its first 300 elements removed. -/
theorem chunks_induction {P : List ℕ → Prop} (h0 : P [])
    (h1 : ∀ x rest, P ((x :: rest).drop 300) → P (x :: rest)) (l : List ℕ) : P l := by
  suffices h : ∀ n, ∀ l : List ℕ, l.length ≤ n → P l from h l.length l (le_refl _)
  intro n
  induction n with
  | zero =>
    intro l hl
    rw [List.length_eq_zero.mp (Nat.le_zero.mp hl)]
    exact h0
  | succ n ih =>
    intro l hl
    cases l with
    | nil => exact h0
    | cons x rest =>
      refine h1 x rest (ih _ ?_)
      simp only [List.length_drop, List.length_cons] at *
      omega

theorem makeChunks_flatten : ∀ (l : List ℕ), (makeChunks l).flatten = l := by
  refine chunks_induction rfl ?_
  intro x rest ih
  rw [makeChunks_cons _ (List.cons_ne_nil x rest), List.flatten_cons, ih,
    List.take_append_drop]

theorem makeChunks_length : ∀ (l : List ℕ), (makeChunks l).length = (l.length + 299) / 300 := by
  refine chunks_induction rfl ?_
  intro x rest ih
  rw [makeChunks_cons _ (List.cons_ne_nil x rest), List.length_cons, ih]
  simp only [List.length_drop, List.length_cons]
  omega

theorem makeChunks_dropLast_length :
    ∀ (l : List ℕ), ∀ c ∈ (makeChunks l).dropLast, c.length = 300 := by
  refine chunks_induction ?_ ?_
  · intro c hc; simp [makeChunks_nil] at hc
  · intro x rest ih c hc
    rw [makeChunks_cons _ (List.cons_ne_nil x rest)] at hc
    by_cases hrest : (x :: rest).drop 300 = []
    · rw [hrest, makeChunks_nil] at hc
      simp at hc
    · have hne : makeChunks ((x :: rest).drop 300) ≠ [] := by
        simpa [makeChunks_eq_nil_iff] using hrest
      rw [List.dropLast_cons_of_ne_nil hne] at hc
      rcases List.mem_cons.mp hc with h | h
      · subst h
        have : 300 ≤ (x :: rest).length := by
          by_contra hlt
          exact hrest (List.drop_eq_nil_iff.mpr (by omega))
        simpa [List.length_take] using this
      · exact ih c h

theorem makeChunks_getLast_length :
    ∀ (l : List ℕ), ∀ c, (makeChunks l).getLast? = some c →
      c.length = if l.length % 300 = 0 then 300 else l.length % 300 := by
  refine chunks_induction ?_ ?_
  · intro c hc; simp [makeChunks_nil] at hc
  · intro x rest ih c hc
    rw [makeChunks_cons _ (List.cons_ne_nil x rest)] at hc
    by_cases hrest : (x :: rest).drop 300 = []
    · rw [hrest, makeChunks_nil] at hc
      simp only [List.getLast?_singleton, Option.some_inj] at hc
      subst hc
      have hle : (x :: rest).length ≤ 300 := by
        by_contra hgt
        rw [List.drop_eq_nil_iff] at hrest
        omega
      have hpos : 0 < (x :: rest).length := by simp
      have htake : ((x :: rest).take 300).length = (x :: rest).length := by
        simp only [List.length_take]
        omega
      rw [htake]
      split <;> omega
    · have hne : makeChunks ((x :: rest).drop 300) ≠ [] := by
        simpa [makeChunks_eq_nil_iff] using hrest
      rcases List.exists_cons_of_ne_nil hne with ⟨d, ds, hds⟩
      rw [hds, List.getLast?_cons_cons] at hc
      have := ih c (hds ▸ hc)
      have hgt : 300 < (x :: rest).length := by
        by_contra hle
        rw [List.drop_eq_nil_iff] at hrest
        omega
      simp only [List.length_drop] at this
      have hmod : ((x :: rest).length - 300) % 300 = (x :: rest).length % 300 := by
        omega
      rw [hmod] at this
      exact this

/-- C1: for every non-empty payload, the transfer engine's chunking yields
exactly `⌈L/300⌉` chunks by contiguous slicing; every chunk except
possibly the last has length 300; the last chunk has length `L mod 300`
when `L` is not a multiple of 300 (and 300 when it is); and the
concatenation of the chunks in order is the payload itself (so the chunks
are the non-overlapping contiguous pieces of the payload). -/
theorem chunking_partition (byteData : List ℕ) (_h : byteData ≠ []) :
    (makeChunks byteData).length = (byteData.length + 299) / 300 ∧
    (∀ c ∈ (makeChunks byteData).dropLast, c.length = 300) ∧
    (∀ c, (makeChunks byteData).getLast? = some c →
      c.length = if byteData.length % 300 = 0 then 300 else byteData.length % 300) ∧
    (makeChunks byteData).flatten = byteData :=
  ⟨makeChunks_length byteData, makeChunks_dropLast_length byteData,
    makeChunks_getLast_length byteData, makeChunks_flatten byteData⟩

/-- Witness for C1 at the spec's own example: a 700-byte payload produces
`⌈700/300⌉ = 3` chunks whose concatenation is the payload (by the
dropLast/getLast clauses of `chunking_partition` their lengths are
`[300, 300, 100]`). -/
theorem chunking_partition_witness :
    (makeChunks (List.replicate 700 1)).length = 3 ∧
    (makeChunks (List.replicate 700 1)).flatten = List.replicate 700 1 := by
  have h := chunking_partition (List.replicate 700 1)
    (List.length_pos.mp (by rw [List.length_replicate]; omega))
  refine ⟨?_, h.2.2.2⟩
  rw [h.1, List.length_replicate]

/-!  Characterisation of the streaming loop under the write oracle. -/

theorem streamLoop_success (L : ℕ) (writeOk : ℕ → Bool) :
    ∀ (chunks : List (List ℕ)) (i count : ℕ),
      (∀ j, j < chunks.length → writeOk (i + j) = true) →
      streamLoop L writeOk chunks i count =
        (successEvs L chunks count, count + sumLen chunks, true) := by
  intro chunks
  induction chunks with
  | nil => intro i count _; simp [streamLoop, successEvs, sumLen]
  | cons chunk rest ih =>
    intro i count hok
    have h0 : writeOk i = true := by simpa using hok 0 (by simp)
    have hok2 : ∀ j, j < rest.length → writeOk (i + 1 + j) = true := by
      intro j hj
      have := hok (j + 1) (by simpa using Nat.succ_lt_succ hj)
      simpa [Nat.add_assoc, Nat.add_comm 1 j] using this
    simp only [streamLoop, h0, if_true, ih (i + 1) (count + chunk.length) hok2,
      successEvs, sumLen, List.map_cons, List.sum_cons, Prod.mk.injEq]
    refine ⟨trivial, by omega, trivial⟩

theorem streamLoop_fail (L : ℕ) (writeOk : ℕ → Bool) :
    ∀ (chunks : List (List ℕ)) (k i count : ℕ), k < chunks.length →
      (∀ j, j < k → writeOk (i + j) = true) → writeOk (i + k) = false →
      ∃ ck, chunks[k]? = some ck ∧
        streamLoop L writeOk chunks i count =
          (successEvs L (chunks.take k) count ++ [Ev.chunkWrite ck],
           count + sumLen (chunks.take k), false) := by
  intro chunks
  induction chunks with
  | nil => intro k i count hk; simp at hk
  | cons chunk rest ih =>
    intro k i count hk hok hfail
    cases k with
    | zero =>
      have h0 : writeOk i = false := by simpa using hfail
      refine ⟨chunk, by simp, ?_⟩
      simp [streamLoop, h0, successEvs, sumLen]
    | succ k =>
      have h0 : writeOk i = true := by simpa using hok 0 (Nat.succ_pos k)
      have hok2 : ∀ j, j < k → writeOk (i + 1 + j) = true := by
        intro j hj
        have := hok (j + 1) (by omega)
        simpa [Nat.add_assoc, Nat.add_comm 1 j] using this
      have hfail2 : writeOk (i + 1 + k) = false := by
        have := hfail
        simpa [Nat.add_assoc, Nat.add_comm 1 k] using this
      obtain ⟨ck, hget, heq⟩ := ih k (i + 1) (count + chunk.length)
        (by simpa using Nat.lt_of_succ_lt_succ hk) hok2 hfail2
      refine ⟨ck, by simpa using hget, ?_⟩
      simp only [streamLoop, h0, if_true, heq, List.take_succ_cons, successEvs,
        sumLen, List.map_cons, List.sum_cons, Prod.mk.injEq, List.cons_append]
      refine ⟨trivial, by omega, trivial⟩

theorem successEvs_filter_write (L : ℕ) :
    ∀ (chunks : List (List ℕ)) (count : ℕ),
      (successEvs L chunks count).filter isWriteEv = chunks.map Ev.chunkWrite := by
  intro chunks
  induction chunks with
  | nil => intro count; rfl
  | cons chunk rest ih =>
    intro count
    simp [successEvs, List.filter, isWriteEv, ih]

theorem successEvs_progress (L : ℕ) :
    ∀ (chunks : List (List ℕ)) (count : ℕ),
      (successEvs L chunks count).filterMap progOf = progressesFrom L chunks count := by
  intro chunks
  induction chunks with
  | nil => intro count; rfl
  | cons chunk rest ih =>
    intro count
    simp [successEvs, List.filterMap_cons, progOf, ih, progressesFrom]

theorem run_success (byteData : List ℕ) (writeOk : ℕ → Bool)
    (hok : ∀ i, i < (makeChunks byteData).length → writeOk i = true)
    (hmark : writeOk (makeChunks byteData).length = true) :
    startStreamingData true byteData true writeOk =
      ⟨headEvs ++ successEvs byteData.length (makeChunks byteData) 0 ++
        [Ev.setStreamingStatus "Sending completion signal...",
         Ev.markerWrite [255, 255, 255, 255]] ++
        [Ev.setStreamingProgress (JsNum.num 100),
         Ev.setStreamingStatus "Streaming completed successfully!",
         Ev.setIsStreaming false],
       sumLen (makeChunks byteData), true⟩ := by
  have h := streamLoop_success byteData.length writeOk (makeChunks byteData) 0 0
    (fun j hj => by simpa using hok j hj)
  simp only [startStreamingData, h, hmark, if_true, headEvs, Nat.zero_add,
    List.append_assoc, List.cons_append, List.nil_append]

theorem run_chunk_fail (byteData : List ℕ) (writeOk : ℕ → Bool) (k : ℕ)
    (hk : k < (makeChunks byteData).length)
    (hok : ∀ i, i < k → writeOk i = true) (hfail : writeOk k = false) :
    ∃ ck, (makeChunks byteData)[k]? = some ck ∧
      startStreamingData true byteData true writeOk =
        ⟨headEvs ++
          (successEvs byteData.length ((makeChunks byteData).take k) 0 ++
            [Ev.chunkWrite ck]) ++ failTail,
         sumLen ((makeChunks byteData).take k), false⟩ := by
  obtain ⟨ck, hget, heq⟩ := streamLoop_fail byteData.length writeOk
    (makeChunks byteData) k 0 0 hk (fun j hj => by simpa using hok j hj)
    (by simpa using hfail)
  refine ⟨ck, hget, ?_⟩
  simp [startStreamingData, heq, headEvs]

theorem finalUi_append_failTail (evs : List Ev) :
    finalUi (evs ++ failTail) =
      { streamingProgress := (finalUi evs).streamingProgress,
        streamingStatus := "Error: Streaming failed",
        isStreaming := false } := by
  simp [finalUi, List.foldl_append, failTail, applyEv]

/-- C2: if the characteristic write of chunk `k` (0-indexed) fails while
all earlier chunk writes succeeded, the session ends in the failed state
(`streamingStatus = "Error: Streaming failed"`, `isStreaming = false`, the
code's terminal state for a failed transfer) and the byte counter at that
point is the total length of chunks `0 … k-1`: chunk `k`'s bytes were
never counted because `count += chunk.length` sits after the `await` that
threw. -/
theorem write_failure_aborts (byteData : List ℕ) (writeOk : ℕ → Bool) (k : ℕ)
    (hk : k < (makeChunks byteData).length)
    (hok : ∀ i, i < k → writeOk i = true) (hfail : writeOk k = false) :
    (finalUi (startStreamingData true byteData true writeOk).trace).streamingStatus =
        "Error: Streaming failed" ∧
    (finalUi (startStreamingData true byteData true writeOk).trace).isStreaming = false ∧
    (startStreamingData true byteData true writeOk).bytesSent =
      sumLen ((makeChunks byteData).take k) := by
  obtain ⟨ck, _, heq⟩ := run_chunk_fail byteData writeOk k hk hok hfail
  rw [heq]
  have := finalUi_append_failTail
    (headEvs ++ (successEvs byteData.length ((makeChunks byteData).take k) 0 ++
      [Ev.chunkWrite ck]))
  simp only [List.append_assoc] at this ⊢
  rw [this]
  refine ⟨?_, ?_, ?_⟩ <;> first | rfl | trivial

/-- Witness for C2: a three-byte payload (one chunk) whose very first
write fails: the failed state is reached with `bytesSent = 0`. -/
theorem write_failure_aborts_witness :
    (finalUi (startStreamingData true [1, 2, 3] true noWrites).trace).streamingStatus =
        "Error: Streaming failed" ∧
    (finalUi (startStreamingData true [1, 2, 3] true noWrites).trace).isStreaming = false ∧
    (startStreamingData true [1, 2, 3] true noWrites).bytesSent =
      sumLen ((makeChunks [1, 2, 3]).take 0) :=
  write_failure_aborts [1, 2, 3] noWrites 0 (by decide)
    (fun i hi => absurd hi (Nat.not_lt_zero i)) rfl

theorem sumLen_makeChunks (byteData : List ℕ) :
    sumLen (makeChunks byteData) = byteData.length := by
  rw [sumLen, ← List.length_flatten, makeChunks_flatten]

/-- C3: in a successful session (connected device, MTU granted, every
write acknowledged) the sequence of issued characteristic writes is
exactly the payload chunks in order followed by one single end-marker
write of the fixed bytes `FF FF FF FF` — so the marker write occurs
exactly once, strictly after every payload chunk write and never before
one — and the final byte counter is exactly the payload length: the
marker's 4 bytes are never added to `bytesSent` (hence never enter the
progress percentage, which is computed from `count` alone, cf.
`progress_formula`). -/
theorem end_marker_once (byteData : List ℕ) (writeOk : ℕ → Bool)
    (hok : ∀ i, writeOk i = true) :
    (startStreamingData true byteData true writeOk).trace.filter isWriteEv =
      (makeChunks byteData).map Ev.chunkWrite ++ [Ev.markerWrite [255, 255, 255, 255]] ∧
    (startStreamingData true byteData true writeOk).completed = true ∧
    (startStreamingData true byteData true writeOk).bytesSent = byteData.length := by
  rw [run_success byteData writeOk (fun i _ => hok i) (hok _)]
  refine ⟨?_, rfl, ?_⟩
  · simp [headEvs, List.filter_append, successEvs_filter_write, isWriteEv]
  · exact sumLen_makeChunks byteData

/-- Witness for C3: a two-byte payload with every write acknowledged. -/
theorem end_marker_once_witness :
    (startStreamingData true [5, 6] true alwaysOk).trace.filter isWriteEv =
      (makeChunks [5, 6]).map Ev.chunkWrite ++ [Ev.markerWrite [255, 255, 255, 255]] ∧
    (startStreamingData true [5, 6] true alwaysOk).completed = true ∧
    (startStreamingData true [5, 6] true alwaysOk).bytesSent = [5, 6].length :=
  end_marker_once [5, 6] alwaysOk (fun _ => rfl)

theorem run_marker_fail (byteData : List ℕ) (writeOk : ℕ → Bool)
    (hok : ∀ i, i < (makeChunks byteData).length → writeOk i = true)
    (hfail : writeOk (makeChunks byteData).length = false) :
    startStreamingData true byteData true writeOk =
      ⟨headEvs ++ successEvs byteData.length (makeChunks byteData) 0 ++
        [Ev.setStreamingStatus "Sending completion signal...",
         Ev.markerWrite [255, 255, 255, 255]] ++ failTail,
       sumLen (makeChunks byteData), false⟩ := by
  have h := streamLoop_success byteData.length writeOk (makeChunks byteData) 0 0
    (fun j hj => by simpa using hok j hj)
  simp [startStreamingData, h, hfail, headEvs]

theorem run_mtu_fail (byteData : List ℕ) (writeOk : ℕ → Bool) :
    startStreamingData true byteData false writeOk =
      ⟨[Ev.setIsStreaming true, Ev.setStreamingProgress (JsNum.num 0),
        Ev.setStreamingStatus "Requesting MTU...", Ev.requestMTU 303] ++ failTail,
       0, false⟩ := by
  simp [startStreamingData]

/-!
Correctness of the 53-bit rounding `fl` (specification of `natLog2`,
`floorLog2`, `roundNE`, monotonicity, and the relative error bound), and
the facts about the emitted progress values that follow from it.
-/

theorem natLog2Go_spec :
    ∀ (fuel n : ℕ), 1 ≤ n → n ≤ fuel →
      2 ^ natLog2Go fuel n ≤ n ∧ n < 2 ^ (natLog2Go fuel n + 1) := by
  intro fuel
  induction fuel with
  | zero => intro n h1 h2; omega
  | succ fuel ih =>
    intro n h1 h2
    rw [natLog2Go]
    by_cases h : 2 ≤ n
    · rw [if_pos h]
      obtain ⟨ha, hb⟩ := ih (n / 2) (by omega) (by omega)
      have e1 : 2 ^ (natLog2Go fuel (n / 2) + 1) = 2 ^ natLog2Go fuel (n / 2) * 2 :=
        pow_succ 2 _
      have e2 : 2 ^ (natLog2Go fuel (n / 2) + 1 + 1) =
          2 ^ (natLog2Go fuel (n / 2) + 1) * 2 := pow_succ 2 _
      omega
    · rw [if_neg h]
      simp only [pow_zero, pow_one]
      omega

theorem natLog2_spec (n : ℕ) (h : 1 ≤ n) :
    2 ^ natLog2 n ≤ n ∧ n < 2 ^ (natLog2 n + 1) :=
  natLog2Go_spec n n h (le_refl n)

theorem floorLog2_spec (a b : ℕ) (ha : 1 ≤ a) (hb : 1 ≤ b) :
    (2 : ℚ) ^ floorLog2 a b ≤ (a : ℚ) / b ∧ (a : ℚ) / b < 2 ^ (floorLog2 a b + 1) := by
  obtain ⟨ha1, ha2⟩ := natLog2_spec a ha
  obtain ⟨hb1, hb2⟩ := natLog2_spec b hb
  have hb0 : (0 : ℚ) < (b : ℚ) := by exact_mod_cast hb
  have hp : ∀ m : ℕ, (0 : ℚ) < (2 : ℚ) ^ m := fun m => by positivity
  have haq1 : (2 : ℚ) ^ natLog2 a ≤ (a : ℚ) := by exact_mod_cast ha1
  have haq2 : (a : ℚ) < 2 ^ (natLog2 a + 1) := by exact_mod_cast ha2
  have hbq1 : (2 : ℚ) ^ natLog2 b ≤ (b : ℚ) := by exact_mod_cast hb1
  have hbq2 : (b : ℚ) < 2 ^ (natLog2 b + 1) := by exact_mod_cast hb2
  rw [floorLog2]
  by_cases hc : b * 2 ^ natLog2 a ≤ a * 2 ^ natLog2 b
  · rw [if_pos hc]
    constructor
    · rw [zpow_sub₀ two_ne_zero, zpow_natCast, zpow_natCast,
        div_le_div_iff₀ (hp _) hb0]
      calc (2 : ℚ) ^ natLog2 a * b = ((b * 2 ^ natLog2 a : ℕ) : ℚ) := by
            push_cast; ring
        _ ≤ ((a * 2 ^ natLog2 b : ℕ) : ℚ) := by exact_mod_cast hc
        _ = (a : ℚ) * 2 ^ natLog2 b := by push_cast; ring
    · have hexp : (natLog2 a : ℤ) - natLog2 b + 1 =
          ((natLog2 a + 1 : ℕ) : ℤ) - ((natLog2 b : ℕ) : ℤ) := by push_cast; ring
      rw [hexp, zpow_sub₀ two_ne_zero, zpow_natCast, zpow_natCast,
        div_lt_div_iff₀ hb0 (hp _)]
      calc (a : ℚ) * 2 ^ natLog2 b < 2 ^ (natLog2 a + 1) * 2 ^ natLog2 b :=
            mul_lt_mul_of_pos_right haq2 (hp _)
        _ ≤ 2 ^ (natLog2 a + 1) * b :=
            mul_le_mul_of_nonneg_left hbq1 (le_of_lt (hp _))
  · rw [if_neg hc]
    push_neg at hc
    have hcq : (a : ℚ) * 2 ^ natLog2 b < (b : ℚ) * 2 ^ natLog2 a := by
      calc (a : ℚ) * 2 ^ natLog2 b = ((a * 2 ^ natLog2 b : ℕ) : ℚ) := by
            push_cast; ring
        _ < ((b * 2 ^ natLog2 a : ℕ) : ℚ) := by exact_mod_cast hc
        _ = (b : ℚ) * 2 ^ natLog2 a := by push_cast; ring
    constructor
    · have hexp : (natLog2 a : ℤ) - natLog2 b - 1 =
          ((natLog2 a : ℕ) : ℤ) - ((natLog2 b + 1 : ℕ) : ℤ) := by push_cast; ring
      rw [hexp, zpow_sub₀ two_ne_zero, zpow_natCast, zpow_natCast,
        div_le_div_iff₀ (hp _) hb0]
      have h1 : (2 : ℚ) ^ natLog2 a * b < 2 ^ natLog2 a * 2 ^ (natLog2 b + 1) :=
        mul_lt_mul_of_pos_left hbq2 (hp _)
      have h2 : (2 : ℚ) ^ natLog2 a * 2 ^ (natLog2 b + 1) ≤
          (a : ℚ) * 2 ^ (natLog2 b + 1) :=
        mul_le_mul_of_nonneg_right haq1 (le_of_lt (hp _))
      linarith
    · have hexp2 : (natLog2 a : ℤ) - natLog2 b - 1 + 1 =
          ((natLog2 a : ℕ) : ℤ) - ((natLog2 b : ℕ) : ℤ) := by ring
      rw [hexp2, zpow_sub₀ two_ne_zero, zpow_natCast, zpow_natCast,
        div_lt_div_iff₀ hb0 (hp _)]
      linarith

theorem roundNE_le (q : ℚ) : ((roundNE q : ℤ) : ℚ) ≤ q + 1 / 2 := by
  have hf1 := Int.floor_le q
  have hf2 := Int.lt_floor_add_one q
  rw [roundNE]
  by_cases c1 : q - ⌊q⌋ < 1 / 2
  · rw [if_pos c1]
    linarith
  · rw [if_neg c1]
    push_neg at c1
    by_cases c2 : (1 : ℚ) / 2 < q - ⌊q⌋
    · rw [if_pos c2]
      push_cast
      linarith
    · rw [if_neg c2]
      push_neg at c2
      by_cases c3 : ⌊q⌋ % 2 = 0
      · rw [if_pos c3]
        linarith
      · rw [if_neg c3]
        push_cast
        linarith

theorem le_roundNE (q : ℚ) : q - 1 / 2 ≤ ((roundNE q : ℤ) : ℚ) := by
  have hf1 := Int.floor_le q
  have hf2 := Int.lt_floor_add_one q
  rw [roundNE]
  by_cases c1 : q - ⌊q⌋ < 1 / 2
  · rw [if_pos c1]
    linarith
  · rw [if_neg c1]
    push_neg at c1
    by_cases c2 : (1 : ℚ) / 2 < q - ⌊q⌋
    · rw [if_pos c2]
      push_cast
      linarith
    · rw [if_neg c2]
      push_neg at c2
      by_cases c3 : ⌊q⌋ % 2 = 0
      · rw [if_pos c3]
        linarith
      · rw [if_neg c3]
        push_cast
        linarith

theorem roundNE_mono {q q' : ℚ} (h : q ≤ q') : roundNE q ≤ roundNE q' := by
  by_contra hlt
  push_neg at hlt
  have h1 : ((roundNE q' : ℤ) : ℚ) + 1 ≤ ((roundNE q : ℤ) : ℚ) := by
    exact_mod_cast hlt
  have h2 := roundNE_le q
  have h3 := le_roundNE q'
  have heq : q = q' := by linarith
  rw [heq] at hlt
  exact lt_irrefl _ hlt

theorem int_le_of_le_add_half {x N : ℤ} (h : (x : ℚ) ≤ (N : ℚ) + 1 / 2) : x ≤ N := by
  by_contra hgt
  push_neg at hgt
  have h2 : ((N : ℚ)) + 1 ≤ (x : ℚ) := by exact_mod_cast hgt
  linarith

theorem int_ge_of_ge_sub_half {x N : ℤ} (h : (N : ℚ) - 1 / 2 ≤ (x : ℚ)) : N ≤ x := by
  by_contra hgt
  push_neg at hgt
  have h2 : (x : ℚ) + 1 ≤ (N : ℚ) := by exact_mod_cast hgt
  linarith

theorem flExp_bounds (q : ℚ) (hq : 0 < q) :
    (2 : ℚ) ^ flExp q ≤ q ∧ q < 2 ^ (flExp q + 1) := by
  have hnum : (0 : ℤ) < q.num := Rat.num_pos.mpr hq
  have ha : 1 ≤ q.num.toNat := by omega
  have hb : 1 ≤ q.den := q.den_pos
  have hbridge : ((q.num.toNat : ℕ) : ℚ) / (q.den : ℚ) = q := by
    have h2 : ((q.num.toNat : ℕ) : ℚ) = (q.num : ℚ) := by
      have h3 : ((q.num.toNat : ℕ) : ℤ) = q.num := Int.toNat_of_nonneg (le_of_lt hnum)
      exact_mod_cast h3
    rw [h2, Rat.num_div_den]
  obtain ⟨h1, h2⟩ := floorLog2_spec q.num.toNat q.den ha hb
  rw [hbridge] at h1 h2
  exact ⟨h1, h2⟩

theorem fl_eq (q : ℚ) (hq : 0 < q) :
    fl q = ((roundNE (q * 2 ^ (52 - flExp q)) : ℤ) : ℚ) * 2 ^ (flExp q - 52) := by
  have hcast : ∀ t : ℕ, ((2 ^ t : ℕ) : ℚ) = (2 : ℚ) ^ ((t : ℕ) : ℤ) := by
    intro t
    rw [zpow_natCast]
    push_cast
    ring
  have hinv : (2 : ℚ) ^ (flExp q - 52) = ((2 : ℚ) ^ ((52 : ℤ) - flExp q))⁻¹ := by
    rw [← zpow_neg]
    congr 1
    ring
  rw [fl, if_neg (not_le.mpr hq)]
  by_cases hk : flExp q ≤ 52
  · rw [if_pos hk]
    rw [hcast, Int.toNat_of_nonneg (show (0 : ℤ) ≤ 52 - flExp q by omega)]
    rw [div_eq_mul_inv, hinv]
  · rw [if_neg hk]
    rw [hcast, Int.toNat_of_nonneg (show (0 : ℤ) ≤ flExp q - 52 by omega)]
    rw [div_eq_mul_inv, ← zpow_neg]
    have hx : -(flExp q - 52) = 52 - flExp q := by ring
    rw [hx]

theorem fl_mant_bounds (q : ℚ) (hq : 0 < q) :
    (2 : ℚ) ^ (52 : ℤ) ≤ q * 2 ^ (52 - flExp q) ∧
    q * 2 ^ (52 - flExp q) < 2 ^ (53 : ℤ) := by
  obtain ⟨h1, h2⟩ := flExp_bounds q hq
  have hpos : (0 : ℚ) < 2 ^ ((52 : ℤ) - flExp q) := zpow_pos (by norm_num) _
  constructor
  · have he : (2 : ℚ) ^ (52 : ℤ) = 2 ^ flExp q * 2 ^ ((52 : ℤ) - flExp q) := by
      rw [← zpow_add₀ two_ne_zero]
      congr 1
      ring
    rw [he]
    exact mul_le_mul_of_nonneg_right h1 (le_of_lt hpos)
  · have he : (2 : ℚ) ^ (flExp q + 1) * 2 ^ ((52 : ℤ) - flExp q) = 2 ^ (53 : ℤ) := by
      rw [← zpow_add₀ two_ne_zero]
      congr 1
      ring
    rw [← he]
    exact mul_lt_mul_of_pos_right h2 hpos

theorem fl_zero : fl 0 = 0 := by
  rw [fl, if_pos (le_refl (0 : ℚ))]

theorem fl_nonneg (q : ℚ) : 0 ≤ fl q := by
  by_cases hq : q ≤ 0
  · rw [fl, if_pos hq]
  · push_neg at hq
    rw [fl_eq q hq]
    have hm := (fl_mant_bounds q hq).1
    have hr := le_roundNE (q * 2 ^ ((52 : ℤ) - flExp q))
    have h52 : (1 : ℚ) ≤ 2 ^ (52 : ℤ) := by norm_num
    have hpos : (0 : ℚ) ≤ ((roundNE (q * 2 ^ ((52 : ℤ) - flExp q)) : ℤ) : ℚ) := by
      linarith
    exact mul_nonneg hpos (le_of_lt (zpow_pos (by norm_num) _))

theorem flExp_mono {q q' : ℚ} (hq : 0 < q) (h : q ≤ q') : flExp q ≤ flExp q' := by
  have hq' : 0 < q' := lt_of_lt_of_le hq h
  by_contra hgt
  push_neg at hgt
  have b1 := (flExp_bounds q hq).1
  have b2 := (flExp_bounds q' hq').2
  have hle : (2 : ℚ) ^ (flExp q' + 1) ≤ 2 ^ flExp q :=
    zpow_le_zpow_right₀ one_le_two (by omega)
  linarith

theorem fl_mono {q q' : ℚ} (hq : 0 ≤ q) (h : q ≤ q') : fl q ≤ fl q' := by
  rcases eq_or_lt_of_le hq with heq | hpos
  · have h0 : fl q = 0 := by rw [fl, if_pos (le_of_eq heq.symm)]
    rw [h0]
    exact fl_nonneg q'
  · have hq' : 0 < q' := lt_of_lt_of_le hpos h
    have hke := flExp_mono hpos h
    rcases eq_or_lt_of_le hke with heq2 | hlt2
    · rw [fl_eq q hpos, fl_eq q' hq', ← heq2]
      have hmz : (0 : ℚ) ≤ 2 ^ ((52 : ℤ) - flExp q) :=
        le_of_lt (zpow_pos (by norm_num) _)
      have hmono := roundNE_mono (mul_le_mul_of_nonneg_right h hmz)
      have hcastle : ((roundNE (q * 2 ^ ((52 : ℤ) - flExp q)) : ℤ) : ℚ) ≤
          ((roundNE (q' * 2 ^ ((52 : ℤ) - flExp q)) : ℤ) : ℚ) := by
        exact_mod_cast hmono
      exact mul_le_mul_of_nonneg_right hcastle
        (le_of_lt (zpow_pos (by norm_num) _))
    · rw [fl_eq q hpos, fl_eq q' hq']
      have m1 := fl_mant_bounds q hpos
      have m2 := fl_mant_bounds q' hq'
      have hc53 : ((2 ^ 53 : ℤ) : ℚ) = (2 : ℚ) ^ (53 : ℤ) := by norm_num
      have hc52 : ((2 ^ 52 : ℤ) : ℚ) = (2 : ℚ) ^ (52 : ℤ) := by norm_num
      have hub : roundNE (q * 2 ^ ((52 : ℤ) - flExp q)) ≤ 2 ^ 53 := by
        apply int_le_of_le_add_half
        have hr := roundNE_le (q * 2 ^ ((52 : ℤ) - flExp q))
        rw [hc53]
        linarith [m1.2]
      have hlb : (2 ^ 52 : ℤ) ≤ roundNE (q' * 2 ^ ((52 : ℤ) - flExp q')) := by
        apply int_ge_of_ge_sub_half
        have hr := le_roundNE (q' * 2 ^ ((52 : ℤ) - flExp q'))
        rw [hc52]
        linarith [m2.1]
      have s1 : ((roundNE (q * 2 ^ ((52 : ℤ) - flExp q)) : ℤ) : ℚ) *
          2 ^ (flExp q - 52) ≤ ((2 ^ 53 : ℤ) : ℚ) * 2 ^ (flExp q - 52) :=
        mul_le_mul_of_nonneg_right (by exact_mod_cast hub)
          (le_of_lt (zpow_pos (by norm_num) _))
      have s2 : ((2 ^ 53 : ℤ) : ℚ) * 2 ^ (flExp q - 52) = 2 ^ (flExp q + 1) := by
        rw [hc53, ← zpow_add₀ two_ne_zero]
        congr 1
        ring
      have s3 : (2 : ℚ) ^ (flExp q + 1) ≤ 2 ^ flExp q' :=
        zpow_le_zpow_right₀ one_le_two (by omega)
      have s4 : (2 : ℚ) ^ flExp q' = ((2 ^ 52 : ℤ) : ℚ) * 2 ^ (flExp q' - 52) := by
        rw [hc52, ← zpow_add₀ two_ne_zero]
        congr 1
        ring
      have s5 : ((2 ^ 52 : ℤ) : ℚ) * 2 ^ (flExp q' - 52) ≤
          ((roundNE (q' * 2 ^ ((52 : ℤ) - flExp q')) : ℤ) : ℚ) *
            2 ^ (flExp q' - 52) :=
        mul_le_mul_of_nonneg_right (by exact_mod_cast hlb)
          (le_of_lt (zpow_pos (by norm_num) _))
      rw [s2] at s1
      rw [s4] at s3
      exact le_trans s1 (le_trans s3 s5)

theorem fl_err (q : ℚ) (hq : 0 ≤ q) :
    q - q / 2 ^ 53 ≤ fl q ∧ fl q ≤ q + q / 2 ^ 53 := by
  rcases eq_or_lt_of_le hq with heq | hpos
  · rw [← heq, fl_zero]
    norm_num
  · rw [fl_eq q hpos]
    have hr1 := le_roundNE (q * 2 ^ ((52 : ℤ) - flExp q))
    have hr2 := roundNE_le (q * 2 ^ ((52 : ℤ) - flExp q))
    have hzpos : (0 : ℚ) < 2 ^ (flExp q - 52) := zpow_pos (by norm_num) _
    have hid : q * 2 ^ ((52 : ℤ) - flExp q) * 2 ^ (flExp q - 52) = q := by
      rw [mul_assoc, ← zpow_add₀ two_ne_zero]
      norm_num
    have hhalf : (1 : ℚ) / 2 * 2 ^ (flExp q - 52) = 2 ^ (flExp q - 53) := by
      have hq2 : (1 : ℚ) / 2 = 2 ^ (-1 : ℤ) := by norm_num
      rw [hq2, ← zpow_add₀ two_ne_zero]
      congr 1
      ring
    have herr : (2 : ℚ) ^ (flExp q - 53) ≤ q / 2 ^ 53 := by
      have hk := (flExp_bounds q hpos).1
      have h1 : (2 : ℚ) ^ (flExp q - 53) = 2 ^ flExp q * 2 ^ (-53 : ℤ) := by
        rw [← zpow_add₀ two_ne_zero]
        congr 1
      have h2 : q / 2 ^ 53 = q * 2 ^ (-53 : ℤ) := by
        rw [zpow_neg, div_eq_mul_inv]
        norm_num
      rw [h1, h2]
      exact mul_le_mul_of_nonneg_right hk (le_of_lt (zpow_pos (by norm_num) _))
    constructor
    · have hlow : (q * 2 ^ ((52 : ℤ) - flExp q) - 1 / 2) * 2 ^ (flExp q - 52) ≤
          ((roundNE (q * 2 ^ ((52 : ℤ) - flExp q)) : ℤ) : ℚ) * 2 ^ (flExp q - 52) :=
        mul_le_mul_of_nonneg_right hr1 (le_of_lt hzpos)
      rw [sub_mul, hid, hhalf] at hlow
      linarith
    · have hhigh : ((roundNE (q * 2 ^ ((52 : ℤ) - flExp q)) : ℤ) : ℚ) *
          2 ^ (flExp q - 52) ≤
          (q * 2 ^ ((52 : ℤ) - flExp q) + 1 / 2) * 2 ^ (flExp q - 52) :=
        mul_le_mul_of_nonneg_right hr2 (le_of_lt hzpos)
      rw [add_mul, hid, hhalf] at hhigh
      linarith

theorem fl_one : fl 1 = 1 := by with_unfolding_all decide

theorem fl_hundred : fl 100 = 100 := by with_unfolding_all decide

theorem mathRound_le {q q' : ℚ} (h : q ≤ q') : mathRound q ≤ mathRound q' :=
  Int.floor_le_floor (by linarith)

theorem jsEvalProgress_mono (L : ℕ) (hL : L ≠ 0) {c1 c2 : ℕ} (h : c1 ≤ c2) :
    jsEvalProgress c1 L ≤ jsEvalProgress c2 L := by
  have hL0 : (0 : ℚ) < (L : ℚ) := by exact_mod_cast Nat.pos_of_ne_zero hL
  rw [jsEvalProgress, jsEvalProgress]
  apply fl_mono (mul_nonneg (fl_nonneg _) (by norm_num))
  apply mul_le_mul_of_nonneg_right _ (by norm_num : (0 : ℚ) ≤ 100)
  apply fl_mono (by positivity)
  rw [div_le_div_iff_of_pos_right hL0]
  exact_mod_cast h

theorem jsProgress_pos_def (count L : ℕ) (hL : L ≠ 0) :
    jsProgress count L = JsNum.num (mathRound (jsEvalProgress count L)) := by
  rw [jsProgress, if_neg hL]

theorem jsProgress_zero (L : ℕ) (hL : L ≠ 0) : jsProgress 0 L = JsNum.num 0 := by
  rw [jsProgress_pos_def 0 L hL]
  have h1 : jsEvalProgress 0 L = 0 := by
    rw [jsEvalProgress, Nat.cast_zero, zero_div, fl_zero, zero_mul, fl_zero]
  rw [h1]
  congr 1
  with_unfolding_all decide

theorem jsProgress_total (L : ℕ) (hL : L ≠ 0) : jsProgress L L = JsNum.num 100 := by
  rw [jsProgress_pos_def L L hL]
  have h1 : jsEvalProgress L L = 100 := by
    rw [jsEvalProgress, div_self (by exact_mod_cast hL : (L : ℚ) ≠ 0), fl_one,
      one_mul, fl_hundred]
  rw [h1]
  congr 1
  with_unfolding_all decide

theorem jsLeb_num (a b : ℤ) : jsLeb (JsNum.num a) (JsNum.num b) = true ↔ a ≤ b := by
  simp [jsLeb]

theorem jsProgress_mono (L : ℕ) (hL : L ≠ 0) {c1 c2 : ℕ} (h : c1 ≤ c2) :
    jsLeb (jsProgress c1 L) (jsProgress c2 L) = true := by
  rw [jsProgress_pos_def c1 L hL, jsProgress_pos_def c2 L hL, jsLeb_num]
  exact mathRound_le (jsEvalProgress_mono L hL h)

theorem jsProgress_le_100 (L c : ℕ) (hL : L ≠ 0) (h : c ≤ L) :
    jsLeb (jsProgress c L) (JsNum.num 100) = true := by
  have hm := jsProgress_mono L hL h
  rwa [jsProgress_total L hL] at hm

theorem mathRound_close (c L : ℕ) (hL : L ≠ 0) (hc : c ≤ L) :
    specRound c L - 1 ≤ mathRound (jsEvalProgress c L) ∧
    mathRound (jsEvalProgress c L) ≤ specRound c L + 1 := by
  have hL0 : (0 : ℚ) < (L : ℚ) := by exact_mod_cast Nat.pos_of_ne_zero hL
  have hp53 : (2 : ℚ) ^ 53 = 9007199254740992 := by norm_num
  have hx0 : (0 : ℚ) ≤ (c : ℚ) / L := by positivity
  have hx1 : (c : ℚ) / L ≤ 1 := by
    rw [div_le_one hL0]
    exact_mod_cast hc
  have hy := fl_err ((c : ℚ) / L) hx0
  have hy0 : (0 : ℚ) ≤ fl ((c : ℚ) / L) := fl_nonneg _
  have hz := fl_err (fl ((c : ℚ) / L) * 100) (by positivity)
  rw [hp53] at hy hz
  have hje : jsEvalProgress c L = fl (fl ((c : ℚ) / L) * 100) := rfl
  have key1 : jsEvalProgress c L ≤ 100 * ((c : ℚ) / L) + 1 / 4 := by
    rw [hje]
    nlinarith [hy.1, hy.2, hz.1, hz.2, hx0, hx1, hy0]
  have key2 : 100 * ((c : ℚ) / L) - 1 / 4 ≤ jsEvalProgress c L := by
    rw [hje]
    nlinarith [hy.1, hy.2, hz.1, hz.2, hx0, hx1, hy0]
  have hspec : specRound c L = ⌊100 * ((c : ℚ) / L) + 1 / 2⌋ := by
    rw [specRound, mul_div_assoc]
  have hs1 : (specRound c L : ℚ) ≤ 100 * ((c : ℚ) / L) + 1 / 2 := by
    rw [hspec]
    exact Int.floor_le _
  have hs2 : 100 * ((c : ℚ) / L) + 1 / 2 < (specRound c L : ℚ) + 1 := by
    rw [hspec]
    exact Int.lt_floor_add_one _
  constructor
  · rw [mathRound]
    apply Int.le_floor.mpr
    push_cast
    linarith
  · have hlt : jsEvalProgress c L + 1 / 2 < ((specRound c L + 2 : ℤ) : ℚ) := by
      push_cast
      linarith
    have h2 := Int.floor_lt.mpr hlt
    rw [mathRound]
    omega

theorem progressesFrom_chain (L : ℕ) (hL : L ≠ 0) :
    ∀ (chunks : List (List ℕ)) (count : ℕ),
      List.Chain' (fun a b => jsLeb a b = true)
        (jsProgress count L :: progressesFrom L chunks count) := by
  intro chunks
  induction chunks with
  | nil => intro count; exact List.chain'_singleton _
  | cons chunk rest ih =>
    intro count
    rw [progressesFrom]
    exact List.Chain'.cons (jsProgress_mono L hL (Nat.le_add_right _ _))
      (ih (count + chunk.length))

theorem progressesFrom_mem (L : ℕ) :
    ∀ (chunks : List (List ℕ)) (count : ℕ), ∀ p ∈ progressesFrom L chunks count,
      ∃ c, count ≤ c ∧ c ≤ count + sumLen chunks ∧ p = jsProgress c L := by
  intro chunks
  induction chunks with
  | nil => intro count p hp; simp [progressesFrom] at hp
  | cons chunk rest ih =>
    intro count p hp
    rw [progressesFrom, List.mem_cons] at hp
    rcases hp with h | h
    · exact ⟨count + chunk.length, Nat.le_add_right _ _,
        by simp only [sumLen, List.map_cons, List.sum_cons]; omega, h⟩
    · obtain ⟨c, hc1, hc2, hc3⟩ := ih (count + chunk.length) p h
      exact ⟨c, by omega, by
        simp only [sumLen, List.map_cons, List.sum_cons] at hc2 ⊢
        omega, hc3⟩

theorem marks_success (byteData : List ℕ) (writeOk : ℕ → Bool)
    (hok : ∀ i, i < (makeChunks byteData).length → writeOk i = true)
    (hmark : writeOk (makeChunks byteData).length = true) :
    (startStreamingData true byteData true writeOk).trace.filterMap progOf =
      JsNum.num 0 ::
        (progressesFrom byteData.length (makeChunks byteData) 0 ++ [JsNum.num 100]) := by
  rw [run_success _ _ hok hmark]
  simp [headEvs, List.filterMap_append, successEvs_progress, progOf]

theorem marks_marker_fail (byteData : List ℕ) (writeOk : ℕ → Bool)
    (hok : ∀ i, i < (makeChunks byteData).length → writeOk i = true)
    (hfail : writeOk (makeChunks byteData).length = false) :
    (startStreamingData true byteData true writeOk).trace.filterMap progOf =
      JsNum.num 0 :: progressesFrom byteData.length (makeChunks byteData) 0 := by
  rw [run_marker_fail _ _ hok hfail]
  simp [headEvs, List.filterMap_append, successEvs_progress, progOf, failTail]

theorem marks_chunk_fail (byteData : List ℕ) (writeOk : ℕ → Bool) (k : ℕ)
    (hk : k < (makeChunks byteData).length)
    (hok : ∀ i, i < k → writeOk i = true) (hfail : writeOk k = false) :
    (startStreamingData true byteData true writeOk).trace.filterMap progOf =
      JsNum.num 0 :: progressesFrom byteData.length ((makeChunks byteData).take k) 0 := by
  obtain ⟨ck, _, heq⟩ := run_chunk_fail byteData writeOk k hk hok hfail
  rw [heq]
  simp [headEvs, List.filterMap_append, successEvs_progress, progOf, failTail]

theorem chain_progressMarks (L : ℕ) (hL : L ≠ 0) (chunks : List (List ℕ)) :
    List.Chain' (fun a b => jsLeb a b = true)
      (JsNum.num 0 :: progressesFrom L chunks 0) := by
  have h := progressesFrom_chain L hL chunks 0
  rwa [jsProgress_zero L hL] at h

theorem chain_progressMarks_final (L : ℕ) (hL : L ≠ 0) (chunks : List (List ℕ))
    (hsum : sumLen chunks ≤ L) :
    List.Chain' (fun a b => jsLeb a b = true)
      (JsNum.num 0 :: (progressesFrom L chunks 0 ++ [JsNum.num 100])) := by
  rw [← List.cons_append]
  refine List.chain'_append.mpr ⟨chain_progressMarks L hL chunks,
    List.chain'_singleton _, ?_⟩
  intro x hx y hy
  simp only [List.head?_cons, Option.mem_def, Option.some_inj] at hy
  subst hy
  have hx' := List.mem_of_getLast?_eq_some hx
  rcases List.mem_cons.mp hx' with h | h
  · subst h; rfl
  · obtain ⟨c, _, hc2, rfl⟩ := progressesFrom_mem L chunks 0 x h
    exact jsProgress_le_100 L c hL (by omega)

/-- C4: within one transfer session (any outcome: no device, MTU failure,
a failing chunk or marker write, or full success) the sequence of emitted
progress percentages is monotonically non-decreasing, and when the
session completes — i.e. after the end-marker write is acknowledged — the
last emitted progress value is exactly 100. -/
theorem progress_monotone (deviceConnected : Bool) (byteData : List ℕ)
    (mtuOk : Bool) (writeOk : ℕ → Bool) :
    List.Chain' (fun a b => jsLeb a b = true)
      ((startStreamingData deviceConnected byteData mtuOk writeOk).trace.filterMap progOf) ∧
    ((startStreamingData deviceConnected byteData mtuOk writeOk).completed = true →
      ((startStreamingData deviceConnected byteData mtuOk writeOk).trace.filterMap
        progOf).getLast? = some (JsNum.num 100)) := by
  cases deviceConnected with
  | false =>
    refine ⟨?_, ?_⟩
    · simp [startStreamingData, progOf]
    · intro h
      simp [startStreamingData] at h
  | true =>
    cases mtuOk with
    | false =>
      refine ⟨?_, ?_⟩
      · rw [run_mtu_fail]
        simp only [List.filterMap_append]
        simp [progOf, failTail, List.chain'_singleton]
      · intro h
        rw [run_mtu_fail] at h
        simp at h
    | true =>
      by_cases hall : ∀ i, i < (makeChunks byteData).length → writeOk i = true
      · by_cases hmark : writeOk (makeChunks byteData).length = true
        · -- fully successful session
          rw [marks_success byteData writeOk hall hmark]
          by_cases hL : byteData.length = 0
          · have hnil : byteData = [] := List.length_eq_zero.mp hL
            subst hnil
            refine ⟨?_, fun _ => ?_⟩ <;> simp [makeChunks_nil, progressesFrom, jsLeb]
          · refine ⟨chain_progressMarks_final byteData.length hL (makeChunks byteData)
              (by rw [sumLen_makeChunks]), fun _ => ?_⟩
            rw [← List.cons_append, List.getLast?_concat]
        · -- the end-marker write failed
          have hmark2 : writeOk (makeChunks byteData).length = false := by
            simpa using hmark
          rw [marks_marker_fail byteData writeOk hall hmark2]
          refine ⟨?_, ?_⟩
          · by_cases hL : byteData.length = 0
            · have hnil : byteData = [] := List.length_eq_zero.mp hL
              subst hnil
              simp [makeChunks_nil, progressesFrom]
            · exact chain_progressMarks byteData.length hL (makeChunks byteData)
          · intro h
            rw [run_marker_fail _ _ hall hmark2] at h
            simp at h
      · -- some chunk write failed; take the least failing index
        have hex : ∃ i, i < (makeChunks byteData).length ∧ writeOk i = false := by
          push_neg at hall
          obtain ⟨i, hi, hne⟩ := hall
          exact ⟨i, hi, by revert hne; cases writeOk i <;> simp⟩
        classical
        have hk := (Nat.find_spec hex).1
        have hfailk := (Nat.find_spec hex).2
        have hok : ∀ j, j < Nat.find hex → writeOk j = true := by
          intro j hj
          have hmin := Nat.find_min hex hj
          have hjlen : j < (makeChunks byteData).length := lt_trans hj hk
          revert hmin
          cases h : writeOk j <;> simp [hjlen]
        rw [marks_chunk_fail byteData writeOk (Nat.find hex) hk hok hfailk]
        refine ⟨?_, ?_⟩
        · by_cases hL : byteData.length = 0
          · have hnil : byteData = [] := List.length_eq_zero.mp hL
            subst hnil
            simp [makeChunks_nil, progressesFrom]
          · exact chain_progressMarks byteData.length hL _
        · intro h
          obtain ⟨ck, _, heq⟩ := run_chunk_fail byteData writeOk (Nat.find hex) hk hok hfailk
          rw [heq] at h
          simp at h

/-- Witness for C4: a two-byte payload with every write acknowledged
completes, and its last emitted progress value is 100. -/
theorem progress_monotone_witness :
    (startStreamingData true [1, 2] true alwaysOk).completed = true ∧
    ((startStreamingData true [1, 2] true alwaysOk).trace.filterMap progOf).getLast? =
      some (JsNum.num 100) :=
  ⟨by decide, (progress_monotone true [1, 2] true alwaysOk).2 (by decide)⟩

theorem progressesFrom_eq_map (L : ℕ) :
    ∀ (chunks : List (List ℕ)) (count : ℕ),
      progressesFrom L chunks count =
        (List.range chunks.length).map
          (fun j => jsProgress (count + sumLen (chunks.take (j + 1))) L) := by
  intro chunks
  induction chunks with
  | nil => intro count; rfl
  | cons chunk rest ih =>
    intro count
    rw [progressesFrom, ih (count + chunk.length), List.length_cons,
      List.range_succ_eq_map]
    simp only [List.map_cons, List.map_map]
    congr 1
    apply List.map_congr_left
    intro a _
    simp only [Function.comp_apply, Nat.succ_eq_add_one, List.take_succ_cons,
      sumLen, List.map_cons, List.sum_cons]
    congr 1
    omega

/-- C5 (amended): in a successful session over a non-empty payload, the
emitted progress sequence is: the initial 0; then — after the `j`-th
acknowledged chunk write — exactly `Math.round((bytesSent / len) * 100)`
as evaluated in IEEE double precision
(`mathRound (jsEvalProgress bytesSent len)`), where `bytesSent` is the
total length of chunks `0 … j` (the chunks acknowledged so far); and
finally the fixed 100 of the completion step.  The double evaluation can
deviate from the spec's exact `round(100 × bytesSent / len)`
(`specRound`) — see `progress_formula_counterexample` — but never by more
than one unit (second conjunct). -/
theorem progress_formula (byteData : List ℕ) (writeOk : ℕ → Bool)
    (hne : byteData ≠ []) (hok : ∀ i, writeOk i = true) :
    ((startStreamingData true byteData true writeOk).trace.filterMap progOf =
      JsNum.num 0 ::
        ((List.range (makeChunks byteData).length).map (fun j =>
          JsNum.num (mathRound (jsEvalProgress
            (sumLen ((makeChunks byteData).take (j + 1))) byteData.length))) ++
          [JsNum.num 100])) ∧
    (∀ c, c ≤ byteData.length →
      specRound c byteData.length - 1 ≤ mathRound (jsEvalProgress c byteData.length) ∧
      mathRound (jsEvalProgress c byteData.length) ≤ specRound c byteData.length + 1) := by
  have hL : byteData.length ≠ 0 := by simpa [List.length_eq_zero] using hne
  constructor
  · rw [marks_success byteData writeOk (fun i _ => hok i) (hok _)]
    congr 2
    rw [progressesFrom_eq_map]
    apply List.map_congr_left
    intro j _
    rw [Nat.zero_add, jsProgress_pos_def _ _ hL]
  · intro c hc
    exact mathRound_close c byteData.length hL hc

/-- Witness for C5 (amended): the two-byte payload `[1, 2]` with every
write acknowledged (a single chunk; its emission is
`Math.round((2/2)*100) = 100`). -/
theorem progress_formula_witness :
    (startStreamingData true [1, 2] true alwaysOk).trace.filterMap progOf =
      JsNum.num 0 ::
        ((List.range (makeChunks [1, 2]).length).map (fun j =>
          JsNum.num (mathRound (jsEvalProgress
            (sumLen ((makeChunks [1, 2]).take (j + 1))) (List.length [1, 2])))) ++
          [JsNum.num 100]) :=
  (progress_formula [1, 2] alwaysOk (by decide) (fun _ => rfl)).1

theorem sumLen_take_all300 (chunks : List (List ℕ)) (k : ℕ)
    (hk : k ≤ chunks.length - 1)
    (hall : ∀ c ∈ chunks.dropLast, c.length = 300) :
    sumLen (chunks.take k) = k * 300 := by
  have htk : chunks.take k = chunks.dropLast.take k := by
    rw [List.dropLast_eq_take, List.take_take]
    congr 1
    omega
  have hmem : ∀ c ∈ chunks.take k, c.length = 300 := by
    intro c hc
    rw [htk] at hc
    exact hall c (List.mem_of_mem_take hc)
  have hlen : (chunks.take k).length = k := by
    rw [List.length_take]
    omega
  have hrep : (chunks.take k).map List.length = List.replicate k 300 := by
    refine List.eq_replicate_iff.mpr ⟨by rw [List.length_map]; exact hlen, ?_⟩
    intro b hb
    obtain ⟨c, hc, rfl⟩ := List.mem_map.mp hb
    exact hmem c hc
  rw [sumLen, hrep, List.sum_const_nat]

/-- C5 counterexample: in the successful session streaming a 12000-byte
payload, after the 23rd acknowledged chunk write `bytesSent = 6900` and
the emitted progress (the 24th entry of the emitted progress sequence,
after the initial 0) is 57: the doubles `(6900/12000) * 100` evaluate to
`57.49999999999999…`, which `Math.round` takes to 57 — while the exact
`round(100 · 6900 / 12000) = round(57.5)` is 58.  So the emitted progress
does not always equal `round(100 × bytesSent / len(payload))`. -/
theorem progress_formula_counterexample :
    ((startStreamingData true (List.replicate 12000 0) true alwaysOk).trace.filterMap
      progOf)[23]? = some (JsNum.num 57) ∧
    sumLen ((makeChunks (List.replicate 12000 0)).take 23) = 6900 ∧
    mathRound (jsEvalProgress 6900 12000) = 57 ∧
    specRound 6900 12000 = 58 := by
  have h57 : mathRound (jsEvalProgress 6900 12000) = 57 := by
    with_unfolding_all decide
  have hlen40 : (makeChunks (List.replicate 12000 0)).length = 40 := by
    rw [makeChunks_length, List.length_replicate]
  have hsum : sumLen ((makeChunks (List.replicate 12000 0)).take 23) = 6900 := by
    rw [sumLen_take_all300 _ 23 (by rw [hlen40]; omega) (makeChunks_dropLast_length _)]
  refine ⟨?_, hsum, h57, by with_unfolding_all decide⟩
  rw [marks_success (List.replicate 12000 0) alwaysOk (fun _ _ => rfl) rfl,
    progressesFrom_eq_map, hlen40, List.length_replicate]
  rw [show (23 : ℕ) = 22 + 1 from rfl, List.getElem?_cons_succ,
    List.getElem?_append_left (by simp only [List.length_map, List.length_range]; omega),
    List.getElem?_map, List.getElem?_range (by norm_num : (22 : ℕ) < 40)]
  simp only [Option.map_some', Nat.zero_add]
  rw [show (22 : ℕ) + 1 = 23 from rfl, hsum,
    jsProgress_pos_def 6900 12000 (by norm_num), h57]

/-- C7 counterexample: invoking the transfer routine with the empty payload
and a connected device (all external calls succeeding) emits no `NaN`
progress value anywhere in the session: the division by the payload length
sits inside the per-chunk loop, which runs zero times for zero chunks, so
the claimed `NaN` never arises; instead the session completes with
progress 100. -/
theorem empty_payload_no_nan :
    hasNanProgress (startStreamingData true [] true alwaysOk).trace = false ∧
    (finalUi (startStreamingData true [] true alwaysOk).trace).streamingProgress =
      JsNum.num 100 ∧
    (startStreamingData true [] true alwaysOk).completed = true := by
  decide

/-- C7 (amended): invoking the transfer routine with an empty payload and a
connected device is indeed unguarded, but it does not produce a `NaN`
progress value: the engine proceeds normally, issues no chunk write and
exactly the end-marker write, never emits `NaN` (the progress division is
never evaluated since the chunk loop body does not run), and completes
reporting progress 100. -/
theorem empty_payload_behavior (writeOk : ℕ → Bool) (hok : ∀ i, writeOk i = true) :
    (startStreamingData true [] true writeOk).trace.filter isWriteEv =
      [Ev.markerWrite [255, 255, 255, 255]] ∧
    hasNanProgress (startStreamingData true [] true writeOk).trace = false ∧
    (finalUi (startStreamingData true [] true writeOk).trace).streamingProgress =
      JsNum.num 100 ∧
    (startStreamingData true [] true writeOk).completed = true := by
  rw [run_success [] writeOk (fun i _ => hok i) (hok _)]
  decide

/-- Witness for the amended C7 at the all-acknowledging oracle. -/
theorem empty_payload_behavior_witness :
    (startStreamingData true [] true alwaysOk).trace.filter isWriteEv =
      [Ev.markerWrite [255, 255, 255, 255]] ∧
    hasNanProgress (startStreamingData true [] true alwaysOk).trace = false ∧
    (finalUi (startStreamingData true [] true alwaysOk).trace).streamingProgress =
      JsNum.num 100 ∧
    (startStreamingData true [] true alwaysOk).completed = true :=
  empty_payload_behavior alwaysOk (fun _ => rfl)

/-- C8 counterexample: with no device handle the rejection status message
set by the engine is `"Error: No device connected"`, which is not the
claim's `"no device connected"`. -/
theorem no_device_message_counterexample :
    (finalUi (startStreamingData false [1, 2, 3] true alwaysOk).trace).streamingStatus =
      "Error: No device connected" ∧
    (finalUi (startStreamingData false [1, 2, 3] true alwaysOk).trace).streamingStatus ≠
      "no device connected" := by
  decide

/-- C8 (amended): a transfer requested with no active device handle is
rejected synchronously: the whole trace is the status message
`"Error: No device connected"` followed by clearing the streaming flag —
in particular no MTU request and no characteristic write is ever issued —
and the final state shows that message with `isStreaming = false`. -/
theorem no_device_rejection (byteData : List ℕ) (mtuOk : Bool) (writeOk : ℕ → Bool) :
    (startStreamingData false byteData mtuOk writeOk).trace =
      [Ev.setStreamingStatus "Error: No device connected", Ev.setIsStreaming false] ∧
    (startStreamingData false byteData mtuOk writeOk).trace.filter isWriteEv = [] ∧
    (finalUi (startStreamingData false byteData mtuOk writeOk).trace).streamingStatus =
      "Error: No device connected" ∧
    (finalUi (startStreamingData false byteData mtuOk writeOk).trace).isStreaming = false :=
  ⟨rfl, rfl, rfl, rfl⟩

/-- Induction principle matching the three-bytes-at-a-time recursion of the
base64 encoder. -/
theorem list3_induction {P : List ℕ → Prop} (h0 : P []) (h1 : ∀ a, P [a])
    (h2 : ∀ a b, P [a, b])
    (h3 : ∀ a b c rest, P rest → P (a :: b :: c :: rest)) : ∀ l, P l
  | [] => h0
  | [a] => h1 a
  | [a, b] => h2 a b
  | a :: b :: c :: rest => h3 a b c rest (list3_induction h0 h1 h2 h3 rest)

theorem b64indexOf_charOf : ∀ i < 65, b64indexOf (b64charOf i) = i := by
  decide

theorem b64encode_lt : ∀ l, (∀ x ∈ l, x < 256) → ∀ y ∈ b64encode l, y < 65 := by
  refine list3_induction ?_ ?_ ?_ ?_
  · intro _ y hy; simp [b64encode] at hy
  · intro a h y hy
    have ha : a < 256 := h a (by simp)
    simp only [b64encode, List.mem_cons, List.not_mem_nil, or_false] at hy
    rcases hy with rfl | rfl | rfl | rfl <;> omega
  · intro a b h y hy
    have ha : a < 256 := h a (by simp)
    have hb : b < 256 := h b (by simp)
    simp only [b64encode, List.mem_cons, List.not_mem_nil, or_false] at hy
    rcases hy with rfl | rfl | rfl | rfl <;> omega
  · intro a b c rest ih h y hy
    have ha : a < 256 := h a (by simp)
    have hb : b < 256 := h b (by simp)
    have hc : c < 256 := h c (by simp)
    simp only [b64encode, List.cons_append, List.nil_append, List.mem_cons] at hy
    rcases hy with rfl | rfl | rfl | rfl | hy
    · omega
    · omega
    · omega
    · omega
    · exact ih (fun x hx => h x (by simp [hx])) y hy

theorem map_b64indexOf_charOf (l : List ℕ) (h : ∀ x ∈ l, x < 65) :
    (l.map b64charOf).map b64indexOf = l := by
  induction l with
  | nil => rfl
  | cons x rest ih =>
    simp only [List.map_cons, List.cons.injEq]
    exact ⟨b64indexOf_charOf x (h x (by simp)),
      ih (fun y hy => h y (by simp [hy]))⟩

theorem b64decode_encode : ∀ l, (∀ x ∈ l, x < 256) → b64decode (b64encode l) = l := by
  refine list3_induction ?_ ?_ ?_ ?_
  · intro _; rfl
  · intro a h
    have ha : a < 256 := h a (by simp)
    simp only [b64encode, b64decode, if_pos rfl]
    have h1 : a % 4 * 16 / 16 = a % 4 := by omega
    have h2 : a / 4 * 4 + a % 4 = a := by omega
    rw [h1, h2]
    simp
  · intro a b h
    have ha : a < 256 := h a (by simp)
    have hb : b < 256 := h b (by simp)
    have hne : ¬(b % 16 * 4 = 64) := by omega
    simp only [b64encode, b64decode, hne, if_false, if_pos rfl]
    have h1 : (a % 4 * 16 + b / 16) / 16 = a % 4 := by omega
    have h2 : a / 4 * 4 + a % 4 = a := by omega
    have h3 : (a % 4 * 16 + b / 16) % 16 = b / 16 := by omega
    have h4 : b % 16 * 4 / 4 = b % 16 := by omega
    have h5 : b / 16 * 16 + b % 16 = b := by omega
    rw [h1, h2, h3, h4, h5]
    simp
  · intro a b c rest ih h
    have ha : a < 256 := h a (by simp)
    have hb : b < 256 := h b (by simp)
    have hc : c < 256 := h c (by simp)
    have hrest : ∀ x ∈ rest, x < 256 := fun x hx => h x (by simp [hx])
    have hne3 : ¬(b % 16 * 4 + c / 64 = 64) := by omega
    have hne4 : ¬(c % 64 = 64) := by omega
    simp only [b64encode, List.cons_append, List.nil_append, b64decode, hne3,
      hne4, if_false]
    have h1 : (a % 4 * 16 + b / 16) / 16 = a % 4 := by omega
    have h2 : a / 4 * 4 + a % 4 = a := by omega
    have h3 : (a % 4 * 16 + b / 16) % 16 = b / 16 := by omega
    have h4 : (b % 16 * 4 + c / 64) / 4 = b % 16 := by omega
    have h5 : b / 16 * 16 + b % 16 = b := by omega
    have h6 : (b % 16 * 4 + c / 64) % 4 = c / 64 := by omega
    have h7 : c / 64 * 64 + c % 64 = c := by omega
    rw [h1, h2, h3, h4, h5, h6, h7]
    simp [ih hrest]

/-- C6: the transport encoding round-trips: for every byte sequence with
values in 0–255, encoding it for a chunk write via `bytesToBase64` and
decoding the resulting text yields the original byte sequence unchanged. -/
theorem transport_roundtrip (bytes : List ℕ) (h : ∀ b ∈ bytes, b < 256) :
    base64decode (bytesToBase64 bytes) = bytes := by
  have hmask : bytes.map (· % 256) = bytes := by
    have h2 : bytes.map (· % 256) = bytes.map id :=
      List.map_congr_left (fun x hx => Nat.mod_eq_of_lt (h x hx))
    rwa [List.map_id] at h2
  rw [bytesToBase64, base64decode, hmask,
    map_b64indexOf_charOf _ (b64encode_lt bytes h), b64decode_encode bytes h]

/-- Witness for C6 on a concrete byte sequence covering the padded and
unpadded encoder cases. -/
theorem transport_roundtrip_witness :
    base64decode (bytesToBase64 [0, 255, 16, 77, 97]) = [0, 255, 16, 77, 97] :=
  transport_roundtrip [0, 255, 16, 77, 97] (by decide)

theorem parseToken_range (t : List Char) (v : ℤ) (h : parseToken t = Except.ok v) :
    0 ≤ v ∧ v ≤ 255 := by
  unfold parseToken at h
  split at h
  · exact absurd h (by simp)
  · split at h
    · exact absurd h (by simp)
    · simp only [Except.ok.injEq] at h
      subst h
      rename_i hr
      push_neg at hr
      omega

theorem parseBytesLoop_range :
    ∀ (parts : List (List Char)) (acc : List ℤ), (∀ v ∈ acc, 0 ≤ v ∧ v ≤ 255) →
      ∀ l, parseBytesLoop parts acc = Except.ok l → ∀ v ∈ l, 0 ≤ v ∧ v ≤ 255 := by
  intro parts
  induction parts with
  | nil =>
    intro acc hacc l h v hv
    simp only [parseBytesLoop, Except.ok.injEq] at h
    subst h
    exact hacc v (List.mem_reverse.mp hv)
  | cons p rest ih =>
    intro acc hacc l h v hv
    rw [parseBytesLoop] at h
    by_cases ht : jsTrim p = []
    · rw [if_pos ht] at h
      exact ih acc hacc l h v hv
    · rw [if_neg ht] at h
      cases hp : parseToken (jsTrim p) with
      | error m => rw [hp] at h; exact absurd h (by simp)
      | ok w =>
        rw [hp] at h
        refine ih (w :: acc) ?_ l h v hv
        intro u hu
        rcases List.mem_cons.mp hu with rfl | hu
        · exact parseToken_range _ _ hp
        · exact hacc u hu

theorem parseByteString_range (s : String) (l : List ℤ)
    (h : parseByteString s = Except.ok l) : ∀ v ∈ l, 0 ≤ v ∧ v ≤ 255 := by
  rw [parseByteString] at h
  by_cases he : jsTrim s.data = []
  · rw [if_pos he] at h
    simp only [Except.ok.injEq] at h
    subst h
    intro v hv
    exact absurd hv (List.not_mem_nil v)
  · rw [if_neg he] at h
    exact parseBytesLoop_range _ [] (by intro v hv; exact absurd hv (List.not_mem_nil v)) l h

theorem parseToken_throws (t : List Char)
    (h : tokenValue t = none ∨ ∃ v, tokenValue t = some v ∧ (v < 0 ∨ 255 < v)) :
    parseToken t = Except.error (tokenErrMsg t) := by
  unfold parseToken
  rcases h with h | ⟨v, hv, hr⟩
  · rw [h]
  · rw [hv]
    exact if_pos hr

/-- C9 (amended): in `parseByteString`, every one- or two-character token
consisting solely of hexadecimal-digit characters is interpreted as
hexadecimal (its value is the base-16 reading `digitsVal 16`), so the
decimal-looking token `"10"` parses to 16 rather than 10; every value the
function returns lies in 0–255; and a token whose chosen `parseInt` parse
yields `NaN` or an out-of-range value makes the function throw.  (A token
with a valid numeric prefix followed by junk, e.g. `"12x"`, is *not*
rejected — see the counterexample — so not every malformed token throws.) -/
theorem parse_token_semantics :
    (∀ c1 ∈ hexDigitChars, parseToken [c1] = Except.ok ((digitsVal 16 [c1] : ℕ) : ℤ)) ∧
    (∀ c1 ∈ hexDigitChars, ∀ c2 ∈ hexDigitChars,
      parseToken [c1, c2] = Except.ok ((digitsVal 16 [c1, c2] : ℕ) : ℤ)) ∧
    parseByteString "10" = Except.ok [16] ∧
    (∀ s l, parseByteString s = Except.ok l → ∀ v ∈ l, 0 ≤ v ∧ v ≤ 255) ∧
    (∀ t, (tokenValue t = none ∨ ∃ v, tokenValue t = some v ∧ (v < 0 ∨ 255 < v)) →
      parseToken t = Except.error (tokenErrMsg t)) := by
  refine ⟨by decide, by decide, by decide, parseByteString_range, parseToken_throws⟩

/-- Witness for C9: the hex reading of the decimal-looking token `"10"`. -/
theorem parse_token_semantics_witness : parseToken ['1', '0'] = Except.ok 16 := by
  have h := parse_token_semantics.2.1 '1' (by decide) '0' (by decide)
  exact h

/-- C9 counterexample: the token `"12x"` is malformed — it is none of the
formats the function itself documents in its error message (`0xAB`, `AB`,
or decimal 0–255) — yet `parseByteString` does not throw on it: the
decimal `parseInt` takes the valid prefix `"12"` and silently ignores the
trailing junk, returning 12. -/
theorem parse_malformed_no_throw : parseByteString "12x" = Except.ok [12] := by
  decide

/-- C10: whenever `addImage` throws for one of its input-validation
reasons — blank (whitespace-only) name, case-insensitive duplicate name,
unparsable byte data, or empty byte data — the in-memory image list is
returned unchanged: the `images.push` sits after every validation check.
(The hypothesis excludes the storage-save failure, which throws *after*
mutating the list.) -/
theorem addImage_validation_unchanged (images : List ImageItem)
    (name byteString : String) (description : Option String) (now : ℤ)
    (newId : String) (saveOk : Bool)
    (h : jsTrim name.data = [] ∨
         images.any (fun img => strToLower img.name == strToLower name) = true ∨
         (∃ m, parseByteString byteString = Except.error m) ∨
         parseByteString byteString = Except.ok []) :
    (∃ m, (addImage images name byteString description now newId saveOk).1 =
      Except.error m) ∧
    (addImage images name byteString description now newId saveOk).2 = images := by
  unfold addImage
  by_cases h1 : jsTrim name.data = []
  · rw [if_pos h1]
    exact ⟨⟨_, rfl⟩, rfl⟩
  · rw [if_neg h1]
    by_cases h2 : images.any (fun img => strToLower img.name == strToLower name) = true
    · rw [if_pos h2]
      exact ⟨⟨_, rfl⟩, rfl⟩
    · rw [if_neg h2]
      cases hp : parseByteString byteString with
      | error m =>
        exact ⟨⟨_, rfl⟩, rfl⟩
      | ok bd =>
        cases bd with
        | nil => exact ⟨⟨_, rfl⟩, rfl⟩
        | cons b bs =>
          exfalso
          rcases h with h | h | ⟨m, hm⟩ | hempty
          · exact h1 h
          · exact h2 h
          · rw [hp] at hm
            exact absurd hm (by simp)
          · rw [hp] at hempty
            exact absurd hempty (by simp)

/-- Witness for C10: adding `"a"` when an image named `"A"` exists hits the
case-insensitive duplicate check and leaves the list unchanged. -/
theorem addImage_validation_unchanged_witness :
    (addImage [ImageItem.mk "id0" "A" [1] "" 0 0] "a" "01" none 0 "newid" true).2 =
      [ImageItem.mk "id0" "A" [1] "" 0 0] :=
  (addImage_validation_unchanged [ImageItem.mk "id0" "A" [1] "" 0 0] "a" "01"
    none 0 "newid" true (Or.inr (Or.inl (by decide)))).2

/-- Witness for the amended C8 at concrete arguments. -/
theorem no_device_rejection_witness :
    (startStreamingData false [1, 2, 3] true alwaysOk).trace =
      [Ev.setStreamingStatus "Error: No device connected", Ev.setIsStreaming false] ∧
    (startStreamingData false [1, 2, 3] true alwaysOk).trace.filter isWriteEv = [] ∧
    (finalUi (startStreamingData false [1, 2, 3] true alwaysOk).trace).streamingStatus =
      "Error: No device connected" ∧
    (finalUi (startStreamingData false [1, 2, 3] true alwaysOk).trace).isStreaming = false :=
  no_device_rejection [1, 2, 3] true alwaysOk
